import Mathlib

/-!
Verification of the peak-detection core of
`spikeinterface/sortingcomponents/peak_detection.py`.

Trace amplitudes (floats in the source) are modelled as exact rationals; a
trace block is a function from (sample index, channel index) to amplitude
together with an explicit number of rows.  Boolean masks mirror the numpy /
numba boolean-array computations of the source, and `npNonzero` mirrors
`np.nonzero` on a 2-D mask (row-major enumeration of true positions).
-/

set_option maxHeartbeats 1000000

namespace SpikeDetect

/-- A trace block: sample index → channel index → amplitude.  The number of
rows (samples) and columns (channels) is passed separately; values outside
the block are never inspected by the definitions below. -/
abbrev Traces := ℕ → ℕ → ℚ

/-- Occurrence count in a list, with the `BEq` instance derived from
decidable equality (the instance used by `List.perm_iff_count`). -/
def cnt {α : Type} [DecidableEq α] (a : α) (l : List α) : ℕ :=
  @List.count α instBEqOfDecidableEq a l

/-- The `peak_sign` parameter common to all detection methods. -/
inductive PeakSign
| pos
| neg
| both
deriving DecidableEq, Repr

/-- Number of rows of `traces[exclude_sweep_size:-exclude_sweep_size, :]`
under Python slicing semantics: for `exclude_sweep_size = 0` the slice
`traces[0:-0]` is `traces[0:0]`, i.e. empty; otherwise it has
`n - 2*exclude_sweep_size` rows (clamped at zero). -/
def centerLen (n ess : ℕ) : ℕ := if ess = 0 then 0 else n - 2 * ess

/-- Conjunction of a boolean condition over `i < n`, mirroring the
`for i in range(n)` accumulation of `&=` on a mask entry. -/
def allB (n : ℕ) (f : ℕ → Bool) : Bool := (List.range n).all f

/-- One row of `np.nonzero` output: the `(s, c)` positions of row `s`
holding `true`, in ascending column order. -/
def rowList (cols : ℕ) (mask : ℕ → ℕ → Bool) (s : ℕ) : List (ℕ × ℕ) :=
  (List.range cols).filterMap fun c => if mask s c then some (s, c) else none

/-- `np.nonzero` on a 2-D boolean mask with `rows × cols` entries: the list
of `(row, col)` positions holding `true`, enumerated in row-major order. -/
def npNonzero (rows cols : ℕ) (mask : ℕ → ℕ → Bool) : List (ℕ × ℕ) :=
  (List.range rows).flatMap (rowList cols mask)

/-- Strict row-major (lexicographic) order on peak records. -/
def pairLex (p q : ℕ × ℕ) : Prop := p.1 < q.1 ∨ (p.1 = q.1 ∧ p.2 < q.2)

instance : DecidableRel pairLex := fun p q => by
  unfold pairLex
  infer_instance

/-! ### DetectPeakByChannel -/

/-- Mask entry computed by the `peak_sign in ('pos', 'both')` branch of
`DetectPeakByChannel.detect_peaks` at center row `s0` and channel `c`:
threshold crossing, strict dominance over the `exclude_sweep_size` samples
before, non-strict over the ones after. -/
def bcMaskPos (tr : Traces) (θ : ℕ → ℚ) (ess : ℕ) (s0 c : ℕ) : Bool :=
  decide (θ c < tr (s0 + ess) c) &&
  allB ess (fun i =>
    decide (tr (s0 + i) c < tr (s0 + ess) c) &&
    decide (tr (s0 + ess + i + 1) c ≤ tr (s0 + ess) c))

/-- Mask entry computed by the `peak_sign in ('neg', 'both')` branch of
`DetectPeakByChannel.detect_peaks`. -/
def bcMaskNeg (tr : Traces) (θ : ℕ → ℚ) (ess : ℕ) (s0 c : ℕ) : Bool :=
  decide (tr (s0 + ess) c < -θ c) &&
  allB ess (fun i =>
    decide (tr (s0 + ess) c < tr (s0 + i) c) &&
    decide (tr (s0 + ess) c ≤ tr (s0 + ess + i + 1) c))

/-- The final boolean mask of `DetectPeakByChannel.detect_peaks`; for
`'both'` the source takes the elementwise or of the two masks. -/
def bcMask (sign : PeakSign) (tr : Traces) (θ : ℕ → ℚ) (ess : ℕ) (s0 c : ℕ) : Bool :=
  match sign with
  | .pos => bcMaskPos tr θ ess s0 c
  | .neg => bcMaskNeg tr θ ess s0 c
  | .both => bcMaskPos tr θ ess s0 c || bcMaskNeg tr θ ess s0 c

namespace DetectPeakByChannel

/-- `DetectPeakByChannel.detect_peaks`: build the center mask, read off its
true positions with `np.nonzero` (row-major), and shift the sample index by
`exclude_sweep_size`.  `n` is the number of rows of `traces`, `numChans`
its number of channels. -/
def detect_peaks (tr : Traces) (n numChans : ℕ) (sign : PeakSign)
    (θ : ℕ → ℚ) (ess : ℕ) : List (ℕ × ℕ) :=
  (npNonzero (centerLen n ess) numChans (fun s0 c => bcMask sign tr θ ess s0 c)).map
    (fun sc => (sc.1 + ess, sc.2))

end DetectPeakByChannel

/-! ### DetectPeakLocallyExclusive -/

/-- Mask entry after `_numba_detect_peak_pos`: the threshold crossing of the
`'pos'` branch, refined by the nested neighbour loop.  Non-neighbours are
skipped (`continue`); inside the `for i in range(exclude_sweep_size)` loop
the same-sample comparison is guarded by `chan_ind != neighbour`, and the
temporal window comparisons read `traces[s + i, nb]` and
`traces[exclude_sweep_size + s + i + 1, nb]`.  The early `break`s only stop
once the conjunction is already false, so the final entry is the plain
conjunction. -/
def leMaskPos (tr : Traces) (θ : ℕ → ℚ) (ess : ℕ) (nbm : ℕ → ℕ → Bool)
    (numChans s0 c : ℕ) : Bool :=
  decide (θ c < tr (s0 + ess) c) &&
  allB numChans (fun nb =>
    !(nbm c nb) ||
    allB ess (fun i =>
      (decide (c = nb) || decide (tr (s0 + ess) nb ≤ tr (s0 + ess) c)) &&
      decide (tr (s0 + i) nb < tr (s0 + ess) c) &&
      decide (tr (s0 + ess + i + 1) nb ≤ tr (s0 + ess) c)))

/-- Mask entry after `_numba_detect_peak_neg` (signs flipped). -/
def leMaskNeg (tr : Traces) (θ : ℕ → ℚ) (ess : ℕ) (nbm : ℕ → ℕ → Bool)
    (numChans s0 c : ℕ) : Bool :=
  decide (tr (s0 + ess) c < -θ c) &&
  allB numChans (fun nb =>
    !(nbm c nb) ||
    allB ess (fun i =>
      (decide (c = nb) || decide (tr (s0 + ess) c ≤ tr (s0 + ess) nb)) &&
      decide (tr (s0 + ess) c < tr (s0 + i) nb) &&
      decide (tr (s0 + ess) c ≤ tr (s0 + ess + i + 1) nb)))

/-- Final mask of `DetectPeakLocallyExclusive.detect_peaks` (or of the two
branch masks for `'both'`). -/
def leMask (sign : PeakSign) (tr : Traces) (θ : ℕ → ℚ) (ess : ℕ)
    (nbm : ℕ → ℕ → Bool) (numChans s0 c : ℕ) : Bool :=
  match sign with
  | .pos => leMaskPos tr θ ess nbm numChans s0 c
  | .neg => leMaskNeg tr θ ess nbm numChans s0 c
  | .both => leMaskPos tr θ ess nbm numChans s0 c ||
             leMaskNeg tr θ ess nbm numChans s0 c

namespace DetectPeakLocallyExclusive

/-- `DetectPeakLocallyExclusive.detect_peaks`: threshold mask on the center
slice refined by the numba neighbour kernel, then `np.nonzero` and the
`exclude_sweep_size` shift, exactly as in the by-channel method. -/
def detect_peaks (tr : Traces) (n numChans : ℕ) (sign : PeakSign)
    (θ : ℕ → ℚ) (ess : ℕ) (nbm : ℕ → ℕ → Bool) : List (ℕ × ℕ) :=
  (npNonzero (centerLen n ess) numChans
      (fun s0 c => leMask sign tr θ ess nbm numChans s0 c)).map
    (fun sc => (sc.1 + ess, sc.2))

end DetectPeakLocallyExclusive

/-! ### DetectPeakLocallyExclusiveOpenCL

The OpenCL kernel `processor_kernel` runs one device thread per output
position `pos` in `[0, chunk_size - 2*exclude_sweep_size)`; each thread
scans all channels, and for a threshold-crossing sample checks every
neighbour: the same-sample dominance (applied to every neighbour, including
the channel itself, where it is trivially true) and the temporal window for
`i` in `1..exclude_sweep_size`.  Each detected peak is appended through
`atomic_inc`, so the order of the returned records is an arbitrary
interleaving of the per-thread record lists. -/

/-- Kernel predicate for `peak_sign = 1` at thread position `pos`,
channel `c`. -/
def clMaskPos (tr : Traces) (θ : ℕ → ℚ) (ess : ℕ) (nbm : ℕ → ℕ → Bool)
    (numChans pos c : ℕ) : Bool :=
  decide (θ c < tr (pos + ess) c) &&
  allB numChans (fun nb =>
    !(nbm c nb) ||
    (decide (tr (pos + ess) nb ≤ tr (pos + ess) c) &&
     allB ess (fun i =>
       decide (tr (pos + ess - (i + 1)) nb < tr (pos + ess) c) &&
       decide (tr (pos + ess + (i + 1)) nb ≤ tr (pos + ess) c))))

/-- Kernel predicate for `peak_sign = -1`. -/
def clMaskNeg (tr : Traces) (θ : ℕ → ℚ) (ess : ℕ) (nbm : ℕ → ℕ → Bool)
    (numChans pos c : ℕ) : Bool :=
  decide (tr (pos + ess) c < -θ c) &&
  allB numChans (fun nb =>
    !(nbm c nb) ||
    (decide (tr (pos + ess) c ≤ tr (pos + ess) nb) &&
     allB ess (fun i =>
       decide (tr (pos + ess) c < tr (pos + ess - (i + 1)) nb) &&
       decide (tr (pos + ess) c ≤ tr (pos + ess + (i + 1)) nb))))

/-- Records appended by the device thread at position `pos`: one `(sample,
channel)` pair per passing channel, channels scanned in ascending order.
`sgnPos` selects the compiled `peak_sign` (`true` ↦ `1`, `false` ↦ `-1`). -/
def clThreadRecords (tr : Traces) (θ : ℕ → ℚ) (ess : ℕ) (nbm : ℕ → ℕ → Bool)
    (numChans : ℕ) (sgnPos : Bool) (pos : ℕ) : List (ℕ × ℕ) :=
  (List.range numChans).filterMap fun c =>
    if (if sgnPos then clMaskPos tr θ ess nbm numChans pos c
        else clMaskNeg tr θ ess nbm numChans pos c)
    then some (pos + ess, c) else none

/-- The per-thread record lists of one kernel launch over a block of `n`
samples (`global_size = chunk_size - 2*exclude_sweep_size`). -/
def clThreadLists (tr : Traces) (n : ℕ) (θ : ℕ → ℚ) (ess : ℕ)
    (nbm : ℕ → ℕ → Bool) (numChans : ℕ) (sgnPos : Bool) : List (List (ℕ × ℕ)) :=
  (List.range (n - 2 * ess)).map (clThreadRecords tr θ ess nbm numChans sgnPos)

/-- `zs` is an order-preserving interleaving of `xs` and `ys`. -/
inductive Merge2 {α : Type} : List α → List α → List α → Prop
| nil : Merge2 [] [] []
| left (x : α) (xs ys zs : List α) : Merge2 xs ys zs → Merge2 (x :: xs) ys (x :: zs)
| right (y : α) (xs ys zs : List α) : Merge2 xs ys zs → Merge2 xs (y :: ys) (y :: zs)

/-- `out` is an order-preserving interleaving of the lists in `ls`: the
possible orders in which concurrently running device threads can append
their records through `atomic_inc`. -/
def MergeN {α : Type} : List (List α) → List α → Prop
| [], out => out = []
| l :: ls, out => ∃ rest, MergeN ls rest ∧ Merge2 l rest out

/-- The set of outputs `OpenCLDetectPeakExecutor.detect_peak` may return on
a block of `n` samples: any scheduling-order interleaving of the per-thread
record lists. -/
def openclRun (tr : Traces) (n : ℕ) (θ : ℕ → ℚ) (ess : ℕ)
    (nbm : ℕ → ℕ → Bool) (numChans : ℕ) (sgnPos : Bool)
    (out : List (ℕ × ℕ)) : Prop :=
  MergeN (clThreadLists tr n θ ess nbm numChans sgnPos) out

/-! ### check_params and setup-time validation -/

/-- Python `int()` applied to a (here exact) numeric value: truncation
toward zero. -/
def pyInt (q : ℚ) : ℤ := if 0 ≤ q then ⌊q⌋ else ⌈q⌉

namespace DetectPeakByChannel

/-- Numeric core of `DetectPeakByChannel.check_params` once `peak_sign` has
passed the assert and noise levels are resolved: per-channel absolute
thresholds `noise_levels * detect_threshold` and
`exclude_sweep_size = int(exclude_sweep_ms * fs / 1000.)`.  Arithmetic is
modelled exactly over ℚ. -/
def check_params (noise_levels : ℕ → ℚ) (detect_threshold : ℚ)
    (exclude_sweep_ms : ℚ) (fs : ℚ) : (ℕ → ℚ) × ℤ :=
  (fun c => noise_levels c * detect_threshold,
   pyInt (exclude_sweep_ms * fs / 1000))

end DetectPeakByChannel

/-- The detection method names registered in `detect_peak_methods`. -/
inductive MethodName
| by_channel
| locally_exclusive
| locally_exclusive_cl
deriving DecidableEq, Repr

/-- Availability of the optional backend dependencies (`HAVE_NUMBA`, and
whether `import pyopencl` succeeds). -/
structure Deps where
  haveNumba : Bool
  havePyopencl : Bool
deriving DecidableEq, Repr

/-- The `assert peak_sign in ('both', 'neg', 'pos')` test shared by all
`check_params` implementations. -/
def signStrValid (s : String) : Bool := s == "both" || s == "neg" || s == "pos"

/-- The `{'pos': 1, 'neg': -1}[self.peak_sign]` lookup performed while
formatting the OpenCL kernel in `create_buffers_and_compile`: `'both'` (or
any other value) raises a `KeyError` there, at first-chunk time. -/
def openclSignCode (s : String) : Option ℤ :=
  if s == "pos" then some 1 else if s == "neg" then some (-1) else none

/-- Validation outcome of `method_class.check_params`, with the checks in
source order: `by_channel` asserts the sign; `locally_exclusive` first
requires numba, then delegates to `by_channel`; `locally_exclusive_cl`
asserts the sign, then constructs `OpenCLDetectPeakExecutor`, whose
`__init__` does `import pyopencl`. -/
def checkParamsOutcome (deps : Deps) : MethodName → String → Except String Unit
| .by_channel, sign =>
    if signStrValid sign then .ok () else .error "assert peak_sign failed"
| .locally_exclusive, sign =>
    if !deps.haveNumba then .error "locally_exclusive needs numba"
    else if signStrValid sign then .ok () else .error "assert peak_sign failed"
| .locally_exclusive_cl, sign =>
    if !signStrValid sign then .error "assert peak_sign failed"
    else if !deps.havePyopencl then .error "No module named pyopencl"
    else .ok ()

/-- The setup phase of `detect_peaks` (everything before the
`ChunkRecordingExecutor` is built and any chunk is scheduled):
`method_class.check_params`, then — when `pipeline_nodes is not None` —
`check_graph` (external, assumed to pass for well-formed node lists) and
`extra_margin = max(node.get_trace_margin() for node in pipeline_nodes)`,
where Python's `max` raises `ValueError` on an empty sequence.  Returns the
computed `extra_margin`. -/
def detect_peaks_setup (deps : Deps) (method : MethodName) (sign : String)
    (pipelineMargins : Option (List ℕ)) : Except String ℕ :=
  match checkParamsOutcome deps method sign with
  | .error e => .error e
  | .ok () =>
    match pipelineMargins with
    | none => .ok 0
    | some ms =>
      match ms.max? with
      | none => .error "ValueError: max() arg is an empty sequence"
      | some m => .ok m

/-! ### Margin-aware chunk worker (`_detect_peaks_chunk`) -/

/-- Zero-padded read of a whole recording segment of `N` samples: sample
indices outside `[0, N)` read as `0`, the `add_zeros=True` boundary
semantics. -/
def paddedRec (rec : Traces) (N : ℕ) (g : ℤ) (c : ℕ) : ℚ :=
  if 0 ≤ g ∧ g < (N : ℤ) then rec g.toNat c else 0

/-- Modelled from the spec: `get_chunk_with_margin(recording_segment,
start_frame, end_frame, None, margin, add_zeros=True)` (the function lives
in the core package, outside this repository slice).  Per the spec it
fetches the block covering `[start_frame - margin, end_frame + margin)`,
zero-padding the part that lies outside the true segment boundaries, so
both returned margins equal the requested `margin`.  The block is returned
as a function of block-local index; its row count is
`(end_frame - start_frame) + 2 * margin`. -/
def get_chunk_with_margin (rec : Traces) (N : ℕ) (start_frame margin : ℕ) :
    Traces × ℕ :=
  (fun i c => paddedRec rec N ((start_frame : ℤ) - (margin : ℤ) + (i : ℤ)) c,
   margin)

/-- The per-chunk worker `_detect_peaks_chunk`, for a detection method with
margin `ess` and a pipeline extra margin `extra`: fetch the block for
`[a, b)` with margin `ess + extra`, strip the extra margin
(`traces[extra_margin:-extra_margin]`) before detection, run the method,
add `extra` back to the local sample indices, and re-base them to absolute
coordinates by adding `start_frame - left_margin`.  Only the
`(sample_index, channel_index)` fields of the peak records are modelled. -/
def detect_peaks_chunk (ess extra : ℕ) (detect : Traces → ℕ → List (ℕ × ℕ))
    (rec : Traces) (N a b : ℕ) : List (ℤ × ℕ) :=
  let margin := ess + extra
  let blockLen := (b - a) + 2 * margin
  let fetched := get_chunk_with_margin rec N a margin
  let block := fetched.1
  let left_margin := fetched.2
  let trace_detection : Traces := fun i c => block (i + extra) c
  let detLen := blockLen - 2 * extra
  (detect trace_detection detLen).map
    (fun sc => (((sc.1 + extra : ℕ) : ℤ) + (a : ℤ) - (left_margin : ℤ), sc.2))

/-- The CPU detection methods the chunk worker can run. -/
inductive CpuMethodKind
| by_channel
| locally_exclusive
deriving DecidableEq, Repr

/-- The final center mask of either CPU method. -/
def cpuMask (mk : CpuMethodKind) (numChans : ℕ) (sign : PeakSign) (θ : ℕ → ℚ)
    (ess : ℕ) (nbm : ℕ → ℕ → Bool) (tr : Traces) (s0 c : ℕ) : Bool :=
  match mk with
  | .by_channel => bcMask sign tr θ ess s0 c
  | .locally_exclusive => leMask sign tr θ ess nbm numChans s0 c

/-- `detect_peaks` of either CPU method, as a function of the trace block
and its row count. -/
def cpuDetect (mk : CpuMethodKind) (numChans : ℕ) (sign : PeakSign)
    (θ : ℕ → ℚ) (ess : ℕ) (nbm : ℕ → ℕ → Bool) (tr : Traces) (n : ℕ) :
    List (ℕ × ℕ) :=
  match mk with
  | .by_channel => DetectPeakByChannel.detect_peaks tr n numChans sign θ ess
  | .locally_exclusive =>
      DetectPeakLocallyExclusive.detect_peaks tr n numChans sign θ ess nbm

/-- Running a list of consecutive chunk boundaries through the worker and
concatenating the outputs in chunk order, as the chunk scheduler does. -/
def runChunks (worker : ℕ → ℕ → List (ℤ × ℕ)) : List ℕ → List (ℤ × ℕ)
| a :: b :: rest => worker a b ++ runChunks worker (b :: rest)
| _ => []

/-- The value of either CPU mask at absolute sample `g` of the zero-padded
recording: the mask evaluated at row 0 of the window starting `ess` samples
before `g`. -/
def globalMask (mk : CpuMethodKind) (numChans : ℕ) (sign : PeakSign)
    (θ : ℕ → ℚ) (ess : ℕ) (nbm : ℕ → ℕ → Bool) (rec : Traces) (N : ℕ)
    (g : ℤ) (c : ℕ) : Bool :=
  cpuMask mk numChans sign θ ess nbm
    (fun i c' => paddedRec rec N (g - (ess : ℤ) + (i : ℤ)) c') 0 c

/-- The chunk worker with fixed method and parameters, as a function of the
chunk boundaries. -/
def cpuChunkWorker (mk : CpuMethodKind) (numChans : ℕ) (sign : PeakSign)
    (θ : ℕ → ℚ) (ess extra : ℕ) (nbm : ℕ → ℕ → Bool) (rec : Traces) (N : ℕ)
    (a b : ℕ) : List (ℤ × ℕ) :=
  detect_peaks_chunk ess extra (cpuDetect mk numChans sign θ ess nbm) rec N a b

/-! ### Concrete fixtures used by witnesses and counterexamples -/

/-- Constant threshold 1 on every channel. -/
def θ0 : ℕ → ℚ := fun _ => 1

/-- Single channel, one clear positive peak at sample 2. -/
def trW1 : Traces := fun s _ => if s = 2 then 5 else 0

/-- Constant trace 5 everywhere (crosses threshold 1 at every sample). -/
def tr1 : Traces := fun _ _ => 5

/-- Single channel: a positive peak at sample 2 immediately followed by a
negative peak at sample 3. -/
def trC5 : Traces := fun s _ => if s = 2 then 5 else if s = 3 then -5 else 0

/-- Single channel, positive peaks at samples 1 and 3. -/
def trC9 : Traces := fun s _ => if s = 1 ∨ s = 3 then 5 else 0

/-- The positive-sign peak rule exactly as the specification words it, at
absolute block sample `s`: threshold crossing, strictly above the
`exclude_sweep_size` samples before, at or above the ones after. -/
def bcClaimedPos (tr : Traces) (θ : ℕ → ℚ) (ess s c : ℕ) : Prop :=
  θ c < tr s c ∧ (∀ i < ess, tr (s - (i + 1)) c < tr s c) ∧
  (∀ i < ess, tr (s + i + 1) c ≤ tr s c)

/-- The negative-sign peak rule as the specification words it. -/
def bcClaimedNeg (tr : Traces) (θ : ℕ → ℚ) (ess s c : ℕ) : Prop :=
  tr s c < -θ c ∧ (∀ i < ess, tr s c < tr (s - (i + 1)) c) ∧
  (∀ i < ess, tr s c ≤ tr (s + i + 1) c)

/-- The per-sign part of the claimed by-channel peak predicate (union of
the two rules for `'both'`). -/
def bcClaimedSign (sign : PeakSign) (tr : Traces) (θ : ℕ → ℚ)
    (ess s c : ℕ) : Prop :=
  match sign with
  | .pos => bcClaimedPos tr θ ess s c
  | .neg => bcClaimedNeg tr θ ess s c
  | .both => bcClaimedPos tr θ ess s c ∨ bcClaimedNeg tr θ ess s c

/-- The claimed by-channel peak predicate: `s` in the interior region
`[ess, n - ess)` of a block of `n` rows, and the per-sign rule. -/
def bcClaimedPeak (sign : PeakSign) (tr : Traces) (θ : ℕ → ℚ)
    (ess n s c : ℕ) : Prop :=
  ess ≤ s ∧ s + ess < n ∧ bcClaimedSign sign tr θ ess s c

instance (tr : Traces) (θ : ℕ → ℚ) (ess s c : ℕ) :
    Decidable (bcClaimedPos tr θ ess s c) := by
  unfold bcClaimedPos
  infer_instance

instance (tr : Traces) (θ : ℕ → ℚ) (ess s c : ℕ) :
    Decidable (bcClaimedNeg tr θ ess s c) := by
  unfold bcClaimedNeg
  infer_instance

instance (sign : PeakSign) (tr : Traces) (θ : ℕ → ℚ) (ess s c : ℕ) :
    Decidable (bcClaimedSign sign tr θ ess s c) := by
  unfold bcClaimedSign
  cases sign <;> infer_instance

instance (sign : PeakSign) (tr : Traces) (θ : ℕ → ℚ) (ess n s c : ℕ) :
    Decidable (bcClaimedPeak sign tr θ ess n s c) := by
  unfold bcClaimedPeak
  infer_instance

/-- Two channels: a positive peak on channel 0 and a negative one on
channel 1, both at sample 1. -/
def trC4 : Traces := fun s c =>
  if s = 1 ∧ c = 0 then 5 else if s = 1 ∧ c = 1 then -5 else 0

/-- Single channel, positive peaks at samples 1 and 4. -/
def trC5w : Traces := fun s _ => if s = 1 ∨ s = 4 then 5 else 0

/-- The value of the kernel predicate at absolute sample `g` of the
zero-padded recording. -/
def clGlobalMask (sgnPos : Bool) (θ : ℕ → ℚ) (ess : ℕ)
    (nbm : ℕ → ℕ → Bool) (numChans : ℕ) (rec : Traces) (N : ℕ)
    (g : ℤ) (c : ℕ) : Bool :=
  if sgnPos then
    clMaskPos (fun i c' => paddedRec rec N (g - (ess : ℤ) + (i : ℤ)) c')
      θ ess nbm numChans 0 c
  else
    clMaskNeg (fun i c' => paddedRec rec N (g - (ess : ℤ) + (i : ℤ)) c')
      θ ess nbm numChans 0 c

/-- `_detect_peaks_chunk` running the OpenCL method (whose executor output
order is scheduling-dependent): some kernel-launch output on the
extra-margin-stripped block, re-based exactly as the worker does. -/
def openclChunkRun (θ : ℕ → ℚ) (ess extra : ℕ) (nbm : ℕ → ℕ → Bool)
    (numChans : ℕ) (sgnPos : Bool) (rec : Traces) (N a b : ℕ)
    (out : List (ℤ × ℕ)) : Prop :=
  ∃ raw,
    openclRun
      (fun i c => paddedRec rec N
        ((a : ℤ) - ((ess + extra : ℕ) : ℤ) + ((i + extra : ℕ) : ℤ)) c)
      ((b - a) + 2 * (ess + extra) - 2 * extra)
      θ ess nbm numChans sgnPos raw ∧
    out = raw.map
      (fun sc => (((sc.1 + extra : ℕ) : ℤ) + (a : ℤ)
        - ((ess + extra : ℕ) : ℤ), sc.2))

/-- Chunk outputs of a nondeterministic per-chunk worker over consecutive
chunk boundaries, concatenated in chunk order. -/
def runChunksRel (rel : ℕ → ℕ → List (ℤ × ℕ) → Prop) :
    List ℕ → List (ℤ × ℕ) → Prop
| a :: b :: rest, out =>
    ∃ o1 o2, rel a b o1 ∧ runChunksRel rel (b :: rest) o2 ∧ out = o1 ++ o2
| _, out => out = []

theorem cnt_nil {α : Type} [DecidableEq α] (a : α) : cnt a ([] : List α) = 0 := rfl

theorem cnt_cons {α : Type} [DecidableEq α] (a x : α) (l : List α) :
    cnt a (x :: l) = cnt a l + if x = a then 1 else 0 := by
  show @List.count α instBEqOfDecidableEq a (x :: l) =
    @List.count α instBEqOfDecidableEq a l + _
  rw [List.count_cons]
  have hb : (x == a) = decide (x = a) := rfl
  rw [hb]
  by_cases h : x = a <;> simp [h]

theorem cnt_append {α : Type} [DecidableEq α] (a : α) (l₁ l₂ : List α) :
    cnt a (l₁ ++ l₂) = cnt a l₁ + cnt a l₂ :=
  List.count_append a l₁ l₂

theorem cnt_pos_iff {α : Type} [DecidableEq α] {a : α} {l : List α} :
    0 < cnt a l ↔ a ∈ l :=
  List.count_pos_iff

theorem cnt_eq_zero_of_not_mem {α : Type} [DecidableEq α] {a : α} {l : List α}
    (h : a ∉ l) : cnt a l = 0 :=
  List.count_eq_zero_of_not_mem h

theorem cnt_eq_one_of_mem {α : Type} [DecidableEq α] {a : α} {l : List α}
    (hn : l.Nodup) (h : a ∈ l) : cnt a l = 1 :=
  List.count_eq_one_of_mem hn h

theorem cnt_map_of_injective {α β : Type} [DecidableEq α] [DecidableEq β]
    (l : List α) (f : α → β) (hf : Function.Injective f) (x : α) :
    cnt (f x) (l.map f) = cnt x l :=
  List.count_map_of_injective l f hf x

theorem perm_iff_cnt {α : Type} [DecidableEq α] {l₁ l₂ : List α} :
    l₁.Perm l₂ ↔ ∀ a, cnt a l₁ = cnt a l₂ :=
  List.perm_iff_count

theorem allB_eq_true {n : ℕ} {f : ℕ → Bool} :
    allB n f = true ↔ ∀ i < n, f i = true := by
  simp [allB, List.all_eq_true]

theorem list_all_congr {f g : ℕ → Bool} :
    ∀ l : List ℕ, (∀ i ∈ l, f i = g i) → l.all f = l.all g
  | [], _ => rfl
  | x :: xs, h => by
    simp only [List.all_cons, h x (List.mem_cons_self x xs),
      list_all_congr xs (fun i hi => h i (List.mem_cons_of_mem x hi))]

theorem allB_congr {n : ℕ} {f g : ℕ → Bool} (h : ∀ i < n, f i = g i) :
    allB n f = allB n g :=
  list_all_congr _ (fun i hi => h i (List.mem_range.mp hi))

theorem mem_rowList {cols : ℕ} {mask : ℕ → ℕ → Bool} {s s' c : ℕ} :
    (s, c) ∈ rowList cols mask s' ↔ s = s' ∧ c < cols ∧ mask s' c = true := by
  simp only [rowList, List.mem_filterMap, List.mem_range]
  constructor
  · rintro ⟨c', hc', h⟩
    by_cases hm : mask s' c' = true
    · simp only [hm, if_true, Option.some.injEq, Prod.mk.injEq] at h
      obtain ⟨rfl, rfl⟩ := h
      exact ⟨rfl, hc', hm⟩
    · simp [hm] at h
  · rintro ⟨rfl, hc, hm⟩
    exact ⟨c, hc, by simp [hm]⟩

theorem fst_of_mem_rowList {cols : ℕ} {mask : ℕ → ℕ → Bool} {s' : ℕ}
    {p : ℕ × ℕ} (h : p ∈ rowList cols mask s') : p.1 = s' := by
  obtain ⟨s, c⟩ := p
  exact (mem_rowList.mp h).1

theorem mem_npNonzero {rows cols : ℕ} {mask : ℕ → ℕ → Bool} {s c : ℕ} :
    (s, c) ∈ npNonzero rows cols mask ↔ s < rows ∧ c < cols ∧ mask s c = true := by
  simp only [npNonzero, List.mem_flatMap, List.mem_range]
  constructor
  · rintro ⟨s', hs', h⟩
    obtain ⟨rfl, hc, hm⟩ := mem_rowList.mp h
    exact ⟨hs', hc, hm⟩
  · rintro ⟨hs, hc, hm⟩
    exact ⟨s, hs, mem_rowList.mpr ⟨rfl, hc, hm⟩⟩

theorem rowList_sorted {cols : ℕ} {mask : ℕ → ℕ → Bool} {s : ℕ} :
    (rowList cols mask s).Pairwise pairLex := by
  unfold rowList
  refine List.Pairwise.filterMap _ ?_ (List.pairwise_lt_range cols)
  intro a a' hlt b hb b' hb'
  by_cases hm : mask s a = true
  · simp only [hm, if_true, Option.mem_def, Option.some.injEq] at hb
    by_cases hm' : mask s a' = true
    · simp only [hm', if_true, Option.mem_def, Option.some.injEq] at hb'
      subst hb; subst hb'
      exact Or.inr ⟨rfl, hlt⟩
    · simp [hm'] at hb'
  · simp [hm] at hb

theorem npNonzero_sorted {rows cols : ℕ} {mask : ℕ → ℕ → Bool} :
    (npNonzero rows cols mask).Pairwise pairLex := by
  rw [npNonzero, List.flatMap_def, List.pairwise_flatten]
  constructor
  · intro l hl
    obtain ⟨s, _, rfl⟩ := List.mem_map.mp hl
    exact rowList_sorted
  · refine List.Pairwise.map _ ?_ (List.pairwise_lt_range rows)
    intro a b hab x hx y hy
    exact Or.inl (by rw [fst_of_mem_rowList hx, fst_of_mem_rowList hy]; exact hab)

theorem npNonzero_nodup {rows cols : ℕ} {mask : ℕ → ℕ → Bool} :
    (npNonzero rows cols mask).Nodup :=
  npNonzero_sorted.imp (fun h => by
    rintro rfl
    rcases h with h | ⟨_, h⟩ <;> omega)

theorem count_npNonzero {rows cols : ℕ} {mask : ℕ → ℕ → Bool} (s c : ℕ) :
    cnt (s, c) (npNonzero rows cols mask) =
    if s < rows ∧ c < cols ∧ mask s c = true then 1 else 0 := by
  by_cases h : s < rows ∧ c < cols ∧ mask s c = true
  · rw [if_pos h]
    exact cnt_eq_one_of_mem npNonzero_nodup (mem_npNonzero.mpr h)
  · rw [if_neg h]
    exact cnt_eq_zero_of_not_mem (fun hmem => h (mem_npNonzero.mp hmem))

theorem mem_bc_detect {tr : Traces} {n numChans : ℕ} {sign : PeakSign}
    {θ : ℕ → ℚ} {ess : ℕ} {s c : ℕ} :
    (s, c) ∈ DetectPeakByChannel.detect_peaks tr n numChans sign θ ess ↔
    ∃ s0, s0 < centerLen n ess ∧ c < numChans ∧ s = s0 + ess ∧
      bcMask sign tr θ ess s0 c = true := by
  simp only [DetectPeakByChannel.detect_peaks, List.mem_map]
  constructor
  · rintro ⟨⟨s0, c0⟩, hmem, h⟩
    simp only [Prod.mk.injEq] at h
    obtain ⟨h1, h2⟩ := h
    obtain ⟨hs0, hc0, hm⟩ := mem_npNonzero.mp hmem
    exact ⟨s0, hs0, h2 ▸ hc0, h1.symm, h2 ▸ hm⟩
  · rintro ⟨s0, hs0, hc, rfl, hm⟩
    exact ⟨(s0, c), mem_npNonzero.mpr ⟨hs0, hc, hm⟩, rfl⟩

theorem mem_le_detect {tr : Traces} {n numChans : ℕ} {sign : PeakSign}
    {θ : ℕ → ℚ} {ess : ℕ} {nbm : ℕ → ℕ → Bool} {s c : ℕ} :
    (s, c) ∈ DetectPeakLocallyExclusive.detect_peaks tr n numChans sign θ ess nbm ↔
    ∃ s0, s0 < centerLen n ess ∧ c < numChans ∧ s = s0 + ess ∧
      leMask sign tr θ ess nbm numChans s0 c = true := by
  simp only [DetectPeakLocallyExclusive.detect_peaks, List.mem_map]
  constructor
  · rintro ⟨⟨s0, c0⟩, hmem, h⟩
    simp only [Prod.mk.injEq] at h
    obtain ⟨h1, h2⟩ := h
    obtain ⟨hs0, hc0, hm⟩ := mem_npNonzero.mp hmem
    exact ⟨s0, hs0, h2 ▸ hc0, h1.symm, h2 ▸ hm⟩
  · rintro ⟨s0, hs0, hc, rfl, hm⟩
    exact ⟨(s0, c), mem_npNonzero.mpr ⟨hs0, hc, hm⟩, rfl⟩

theorem merge2_cnt {α : Type} [DecidableEq α] {xs ys zs : List α}
    (h : Merge2 xs ys zs) (a : α) :
    cnt a zs = cnt a xs + cnt a ys := by
  induction h with
  | nil => rfl
  | left x xs ys zs _ ih =>
    simp only [cnt_cons, ih]
    omega
  | right y xs ys zs _ ih =>
    simp only [cnt_cons, ih]
    omega

theorem mergeN_cnt {α : Type} [DecidableEq α] :
    ∀ {ls : List (List α)} {out : List α}, MergeN ls out → ∀ a : α,
      cnt a out = (ls.map (cnt a)).sum
  | [], out, h, a => by
    have h' : out = [] := h
    subst h'
    rfl
  | l :: ls, out, h, a => by
    obtain ⟨rest, hrest, hmerge⟩ := h
    simp only [List.map_cons, List.sum_cons, merge2_cnt hmerge a,
      mergeN_cnt hrest a]

theorem MergeN.mem_iff {α : Type} [DecidableEq α] {ls : List (List α)}
    {out : List α} (h : MergeN ls out) (a : α) :
    a ∈ out ↔ ∃ l ∈ ls, a ∈ l := by
  rw [← cnt_pos_iff, mergeN_cnt h a]
  constructor
  · intro hpos
    by_contra hno
    push_neg at hno
    have hz : (ls.map (cnt a)).sum = 0 :=
      List.sum_eq_zero (fun x hx => by
        obtain ⟨l, hl, rfl⟩ := List.mem_map.mp hx
        exact cnt_eq_zero_of_not_mem (hno l hl))
    omega
  · rintro ⟨l, hl, hal⟩
    have h1 : 0 < cnt a l := cnt_pos_iff.mpr hal
    have h2 : cnt a l ≤ (ls.map (cnt a)).sum :=
      List.single_le_sum (fun x _ => Nat.zero_le x) _ (List.mem_map_of_mem _ hl)
    omega

theorem cpuDetect_eq (mk : CpuMethodKind) (numChans : ℕ) (sign : PeakSign)
    (θ : ℕ → ℚ) (ess : ℕ) (nbm : ℕ → ℕ → Bool) (tr : Traces) (n : ℕ) :
    cpuDetect mk numChans sign θ ess nbm tr n =
    (npNonzero (centerLen n ess) numChans
        (fun s0 c => cpuMask mk numChans sign θ ess nbm tr s0 c)).map
      (fun sc => (sc.1 + ess, sc.2)) := by
  cases mk <;> rfl

/-! Locality of the CPU masks: the mask entry at center row `s0` only looks
at block rows `s0 + δ`, so two blocks agreeing on those rows give the same
entry. -/

theorem bcMaskPos_local {tr tr' : Traces} {θ : ℕ → ℚ} {ess s0 s0' c : ℕ}
    (h : ∀ δ c', tr (s0 + δ) c' = tr' (s0' + δ) c') :
    bcMaskPos tr θ ess s0 c = bcMaskPos tr' θ ess s0' c := by
  unfold bcMaskPos
  congr 1
  · rw [h ess c]
  · apply allB_congr
    intro i _
    have h2 : tr (s0 + ess + i + 1) c = tr' (s0' + ess + i + 1) c := by
      have e1 : s0 + ess + i + 1 = s0 + (ess + i + 1) := by omega
      have e2 : s0' + ess + i + 1 = s0' + (ess + i + 1) := by omega
      rw [e1, e2]
      exact h (ess + i + 1) c
    rw [h ess c, h i c, h2]

theorem bcMaskNeg_local {tr tr' : Traces} {θ : ℕ → ℚ} {ess s0 s0' c : ℕ}
    (h : ∀ δ c', tr (s0 + δ) c' = tr' (s0' + δ) c') :
    bcMaskNeg tr θ ess s0 c = bcMaskNeg tr' θ ess s0' c := by
  unfold bcMaskNeg
  congr 1
  · rw [h ess c]
  · apply allB_congr
    intro i _
    have h2 : tr (s0 + ess + i + 1) c = tr' (s0' + ess + i + 1) c := by
      have e1 : s0 + ess + i + 1 = s0 + (ess + i + 1) := by omega
      have e2 : s0' + ess + i + 1 = s0' + (ess + i + 1) := by omega
      rw [e1, e2]
      exact h (ess + i + 1) c
    rw [h ess c, h i c, h2]

theorem leMaskPos_local {tr tr' : Traces} {θ : ℕ → ℚ} {ess : ℕ}
    {nbm : ℕ → ℕ → Bool} {numChans s0 s0' c : ℕ}
    (h : ∀ δ c', tr (s0 + δ) c' = tr' (s0' + δ) c') :
    leMaskPos tr θ ess nbm numChans s0 c =
    leMaskPos tr' θ ess nbm numChans s0' c := by
  unfold leMaskPos
  congr 1
  · rw [h ess c]
  · apply allB_congr
    intro nb _
    congr 1
    apply allB_congr
    intro i _
    have h2 : tr (s0 + ess + i + 1) nb = tr' (s0' + ess + i + 1) nb := by
      have e1 : s0 + ess + i + 1 = s0 + (ess + i + 1) := by omega
      have e2 : s0' + ess + i + 1 = s0' + (ess + i + 1) := by omega
      rw [e1, e2]
      exact h (ess + i + 1) nb
    rw [h ess c, h ess nb, h i nb, h2]

theorem leMaskNeg_local {tr tr' : Traces} {θ : ℕ → ℚ} {ess : ℕ}
    {nbm : ℕ → ℕ → Bool} {numChans s0 s0' c : ℕ}
    (h : ∀ δ c', tr (s0 + δ) c' = tr' (s0' + δ) c') :
    leMaskNeg tr θ ess nbm numChans s0 c =
    leMaskNeg tr' θ ess nbm numChans s0' c := by
  unfold leMaskNeg
  congr 1
  · rw [h ess c]
  · apply allB_congr
    intro nb _
    congr 1
    apply allB_congr
    intro i _
    have h2 : tr (s0 + ess + i + 1) nb = tr' (s0' + ess + i + 1) nb := by
      have e1 : s0 + ess + i + 1 = s0 + (ess + i + 1) := by omega
      have e2 : s0' + ess + i + 1 = s0' + (ess + i + 1) := by omega
      rw [e1, e2]
      exact h (ess + i + 1) nb
    rw [h ess c, h ess nb, h i nb, h2]

theorem cpuMask_local (mk : CpuMethodKind) {numChans : ℕ} {sign : PeakSign}
    {θ : ℕ → ℚ} {ess : ℕ} {nbm : ℕ → ℕ → Bool} {tr tr' : Traces}
    {s0 s0' c : ℕ} (h : ∀ δ c', tr (s0 + δ) c' = tr' (s0' + δ) c') :
    cpuMask mk numChans sign θ ess nbm tr s0 c =
    cpuMask mk numChans sign θ ess nbm tr' s0' c := by
  cases mk <;> cases sign <;> simp only [cpuMask, bcMask, leMask]
  · exact bcMaskPos_local h
  · exact bcMaskNeg_local h
  · rw [bcMaskPos_local h, bcMaskNeg_local h]
  · exact leMaskPos_local h
  · exact leMaskNeg_local h
  · rw [leMaskPos_local h, leMaskNeg_local h]

theorem cnt_map_rebase (l : List (ℕ × ℕ)) (d : ℤ) (g : ℤ) (c : ℕ) :
    cnt (g, c) (l.map (fun sc => ((sc.1 : ℤ) + d, sc.2))) =
    if d ≤ g then cnt ((g - d).toNat, c) l else 0 := by
  by_cases hg : d ≤ g
  · rw [if_pos hg]
    have hinj : Function.Injective
        (fun sc : ℕ × ℕ => ((sc.1 : ℤ) + d, sc.2)) := by
      rintro ⟨s1, c1⟩ ⟨s2, c2⟩ hsc
      simp only [Prod.mk.injEq] at hsc
      obtain ⟨h1, h2⟩ := hsc
      have : s1 = s2 := by omega
      simp [this, h2]
    have hval : (g, c) =
        (fun sc : ℕ × ℕ => ((sc.1 : ℤ) + d, sc.2))
          ((g - d).toNat, c) := by
      simp only [Prod.mk.injEq]
      refine ⟨by omega, trivial⟩
    rw [hval]
    exact cnt_map_of_injective l _ hinj _
  · rw [if_neg hg]
    apply cnt_eq_zero_of_not_mem
    intro hmem
    obtain ⟨⟨s0, c0⟩, _, hEq⟩ := List.mem_map.mp hmem
    simp only [Prod.mk.injEq] at hEq
    omega

theorem detect_peaks_chunk_def (ess extra : ℕ)
    (detect : Traces → ℕ → List (ℕ × ℕ)) (rec : Traces) (N a b : ℕ) :
    detect_peaks_chunk ess extra detect rec N a b =
    (detect
        (fun i c => paddedRec rec N
          ((a : ℤ) - ((ess + extra : ℕ) : ℤ) + ((i + extra : ℕ) : ℤ)) c)
        ((b - a) + 2 * (ess + extra) - 2 * extra)).map
      (fun sc => (((sc.1 + extra : ℕ) : ℤ) + (a : ℤ) - ((ess + extra : ℕ) : ℤ),
        sc.2)) :=
  rfl

/-- Occurrence count of a rebased peak record in one chunk's worker output:
one exactly when `exclude_sweep_size ≥ 1`, the absolute sample lies in
`[a, b)`, the channel exists, and the window mask at that absolute sample
holds; zero otherwise. -/
theorem count_chunk (mk : CpuMethodKind) (numChans : ℕ) (sign : PeakSign)
    (θ : ℕ → ℚ) (ess extra : ℕ) (nbm : ℕ → ℕ → Bool)
    (rec : Traces) (N a b : ℕ) (g : ℤ) (c : ℕ) :
    cnt (g, c) (detect_peaks_chunk ess extra
        (cpuDetect mk numChans sign θ ess nbm) rec N a b) =
    if 1 ≤ ess ∧ (a : ℤ) ≤ g ∧ g < (b : ℤ) ∧ c < numChans ∧
        globalMask mk numChans sign θ ess nbm rec N g c = true
    then 1 else 0 := by
  rw [detect_peaks_chunk_def, cpuDetect_eq, List.map_map]
  have hfun : ((fun sc : ℕ × ℕ =>
        (((sc.1 + extra : ℕ) : ℤ) + (a : ℤ) - ((ess + extra : ℕ) : ℤ), sc.2)) ∘
      (fun sc : ℕ × ℕ => (sc.1 + ess, sc.2))) =
      (fun sc : ℕ × ℕ => ((sc.1 : ℤ) + (a : ℤ), sc.2)) := by
    funext sc
    obtain ⟨s0, c0⟩ := sc
    simp only [Function.comp_apply, Prod.mk.injEq]
    refine ⟨?_, trivial⟩
    push_cast
    ring
  rw [hfun, cnt_map_rebase]
  by_cases hg : (a : ℤ) ≤ g
  · rw [if_pos hg]
    simp only [count_npNonzero]
    have hmask : cpuMask mk numChans sign θ ess nbm
        (fun i c' => paddedRec rec N
          ((a : ℤ) - ((ess + extra : ℕ) : ℤ) + ((i + extra : ℕ) : ℤ)) c')
        (g - (a : ℤ)).toNat c =
        globalMask mk numChans sign θ ess nbm rec N g c := by
      apply cpuMask_local
      intro δ c'
      show paddedRec rec N
          ((a : ℤ) - ((ess + extra : ℕ) : ℤ)
            + (((g - (a : ℤ)).toNat + δ + extra : ℕ) : ℤ)) c' =
        paddedRec rec N (g - (ess : ℤ) + ((0 + δ : ℕ) : ℤ)) c'
      have hidx : (a : ℤ) - ((ess + extra : ℕ) : ℤ)
            + (((g - (a : ℤ)).toNat + δ + extra : ℕ) : ℤ)
          = g - (ess : ℤ) + ((0 + δ : ℕ) : ℤ) := by
        omega
      exact congrArg (fun z => paddedRec rec N z c') hidx
    have hpos : ((g - (a : ℤ)).toNat <
          centerLen ((b - a) + 2 * (ess + extra) - 2 * extra) ess)
        ↔ (1 ≤ ess ∧ g < (b : ℤ)) := by
      unfold centerLen
      by_cases hess : ess = 0
      · rw [if_pos hess]
        omega
      · rw [if_neg hess]
        omega
    refine if_congr ?_ rfl rfl
    rw [hmask, hpos]
    constructor
    · rintro ⟨⟨h1, h2⟩, h3, h4⟩
      exact ⟨h1, hg, h2, h3, h4⟩
    · rintro ⟨h1, _, h2, h3, h4⟩
      exact ⟨⟨h1, h2⟩, h3, h4⟩
  · rw [if_neg hg]
    have hno : ¬(1 ≤ ess ∧ (a : ℤ) ≤ g ∧ g < (b : ℤ) ∧ c < numChans ∧
        globalMask mk numChans sign θ ess nbm rec N g c = true) := by
      rintro ⟨_, h2, _⟩
      exact hg h2
    rw [if_neg hno]

theorem count_cpuChunkWorker (mk : CpuMethodKind) (numChans : ℕ)
    (sign : PeakSign) (θ : ℕ → ℚ) (ess extra : ℕ) (nbm : ℕ → ℕ → Bool)
    (rec : Traces) (N a b : ℕ) (g : ℤ) (c : ℕ) :
    cnt (g, c) (cpuChunkWorker mk numChans sign θ ess extra nbm rec N a b) =
    if 1 ≤ ess ∧ (a : ℤ) ≤ g ∧ g < (b : ℤ) ∧ c < numChans ∧
        globalMask mk numChans sign θ ess nbm rec N g c = true
    then 1 else 0 :=
  count_chunk mk numChans sign θ ess extra nbm rec N a b g c

theorem runChunks_cons (w : ℕ → ℕ → List (ℤ × ℕ)) (a b : ℕ) (rest : List ℕ) :
    runChunks w (a :: b :: rest) = w a b ++ runChunks w (b :: rest) := rfl

theorem indicator_merge (P1 P2 : Prop) [Decidable P1] [Decidable P2]
    (x y L g : ℤ) (hxy : x ≤ y) (hyL : y ≤ L) :
    ((if P1 ∧ x ≤ g ∧ g < y ∧ P2 then 1 else 0) +
      (if P1 ∧ y ≤ g ∧ g < L ∧ P2 then 1 else 0) : ℕ) =
    if P1 ∧ x ≤ g ∧ g < L ∧ P2 then 1 else 0 := by
  by_cases h1 : P1
  · by_cases h2 : P2
    · simp only [h1, h2, true_and, and_true]
      split_ifs <;> omega
    · simp [h2]
  · simp [h1]

theorem chain_le_getLastD : ∀ (rest : List ℕ) (b : ℕ),
    List.Chain (· < ·) b rest → b ≤ rest.getLastD b
  | [], b, _ => le_refl b
  | x :: xs, b, h => by
    obtain ⟨hbx, h'⟩ := List.chain_cons.mp h
    calc b ≤ x := le_of_lt hbx
      _ ≤ xs.getLastD x := chain_le_getLastD xs x h'
      _ = (x :: xs).getLastD b := (List.getLastD_cons b x xs).symm

/-- Occurrence count of a record in the concatenation of all chunk outputs
of a strictly increasing boundary list starting at `a`: the single-interval
indicator over `[a, last)`. -/
theorem count_runChunks (mk : CpuMethodKind) (numChans : ℕ) (sign : PeakSign)
    (θ : ℕ → ℚ) (ess extra : ℕ) (nbm : ℕ → ℕ → Bool) (rec : Traces) (N : ℕ)
    (g : ℤ) (c : ℕ) :
    ∀ (ks : List ℕ) (a : ℕ), List.Chain (· < ·) a ks →
    cnt (g, c) (runChunks
        (cpuChunkWorker mk numChans sign θ ess extra nbm rec N) (a :: ks)) =
    if 1 ≤ ess ∧ (a : ℤ) ≤ g ∧ g < ((ks.getLastD a : ℕ) : ℤ) ∧ c < numChans ∧
        globalMask mk numChans sign θ ess nbm rec N g c = true
    then 1 else 0
  | [], a, _ => by
    have h0 : runChunks
        (cpuChunkWorker mk numChans sign θ ess extra nbm rec N) [a] = [] := rfl
    rw [h0]
    have hno : ¬(1 ≤ ess ∧ (a : ℤ) ≤ g ∧
        g < ((List.getLastD [] a : ℕ) : ℤ) ∧ c < numChans ∧
        globalMask mk numChans sign θ ess nbm rec N g c = true) := by
      rintro ⟨_, h2, h3, _⟩
      have : List.getLastD ([] : List ℕ) a = a := rfl
      rw [this] at h3
      omega
    rw [if_neg hno]
    exact cnt_nil (g, c)
  | b :: rest, a, hchain => by
    obtain ⟨hab, hchain'⟩ := List.chain_cons.mp hchain
    rw [runChunks_cons, cnt_append, count_cpuChunkWorker,
      count_runChunks mk numChans sign θ ess extra nbm rec N g c rest b hchain',
      List.getLastD_cons]
    have hbL : b ≤ rest.getLastD b := chain_le_getLastD rest b hchain'
    exact indicator_merge _ _ _ _ _ _ (by exact_mod_cast le_of_lt hab)
      (by exact_mod_cast hbL)

/-! ### Chunk invariance for the OpenCL method -/

theorem merge2_nil_left {α : Type} : ∀ r : List α, Merge2 [] r r
  | [] => Merge2.nil
  | y :: ys => Merge2.right y _ _ _ (merge2_nil_left ys)

theorem merge2_append {α : Type} : ∀ (l r : List α), Merge2 l r (l ++ r)
  | [], r => merge2_nil_left r
  | x :: xs, r => Merge2.left x _ _ _ (merge2_append xs r)

/-- The first-come-first-served schedule is one valid interleaving. -/
theorem mergeN_flatten {α : Type} : ∀ ls : List (List α), MergeN ls ls.flatten
  | [] => rfl
  | l :: ls => ⟨ls.flatten, mergeN_flatten ls, merge2_append l ls.flatten⟩

theorem rowList_nodup {cols : ℕ} {mask : ℕ → ℕ → Bool} {s : ℕ} :
    (rowList cols mask s).Nodup :=
  rowList_sorted.imp (fun h => by
    rintro rfl
    rcases h with h | ⟨_, h⟩ <;> omega)

theorem count_rowList {cols : ℕ} {mask : ℕ → ℕ → Bool} (s' s c : ℕ) :
    cnt (s, c) (rowList cols mask s') =
    if s = s' ∧ c < cols ∧ mask s' c = true then 1 else 0 := by
  by_cases h : s = s' ∧ c < cols ∧ mask s' c = true
  · rw [if_pos h]
    exact cnt_eq_one_of_mem rowList_nodup (mem_rowList.mpr h)
  · rw [if_neg h]
    exact cnt_eq_zero_of_not_mem (fun hmem => h (mem_rowList.mp hmem))

theorem clThreadRecords_eq_rowList (tr : Traces) (θ : ℕ → ℚ) (ess : ℕ)
    (nbm : ℕ → ℕ → Bool) (numChans : ℕ) (sgnPos : Bool) (pos : ℕ) :
    clThreadRecords tr θ ess nbm numChans sgnPos pos =
    rowList numChans
      (fun _ c => if sgnPos then clMaskPos tr θ ess nbm numChans pos c
        else clMaskNeg tr θ ess nbm numChans pos c) (pos + ess) :=
  rfl

theorem count_clThreadRecords (tr : Traces) (θ : ℕ → ℚ) (ess : ℕ)
    (nbm : ℕ → ℕ → Bool) (numChans : ℕ) (sgnPos : Bool) (pos s c : ℕ) :
    cnt (s, c) (clThreadRecords tr θ ess nbm numChans sgnPos pos) =
    if s = pos + ess ∧ c < numChans ∧
        (if sgnPos then clMaskPos tr θ ess nbm numChans pos c
         else clMaskNeg tr θ ess nbm numChans pos c) = true
    then 1 else 0 := by
  rw [clThreadRecords_eq_rowList, count_rowList]

theorem sum_indicator_unique (n : ℕ) (P : ℕ → Prop) [DecidablePred P]
    (k : ℕ) (huniq : ∀ pos, P pos → pos = k) :
    ((List.range n).map (fun pos => if P pos then 1 else 0)).sum =
    if k < n ∧ P k then 1 else 0 := by
  induction n with
  | zero => simp
  | succ m ih =>
    rw [List.range_succ, List.map_append, List.sum_append, ih]
    simp only [List.map_cons, List.map_nil, List.sum_cons, List.sum_nil]
    by_cases hPm : P m
    · have hk : m = k := huniq m hPm
      subst hk
      simp only [hPm, if_true, and_true]
      split_ifs <;> omega
    · simp only [hPm, if_false, add_zero]
      refine if_congr (and_congr_left fun hPk => ?_) rfl rfl
      have : k ≠ m := fun he => hPm (he ▸ hPk)
      omega

/-- Occurrence count of a local record in any scheduling-order output of
one kernel launch. -/
theorem count_openclRun {tr : Traces} {n : ℕ} {θ : ℕ → ℚ} {ess : ℕ}
    {nbm : ℕ → ℕ → Bool} {numChans : ℕ} {sgnPos : Bool}
    {raw : List (ℕ × ℕ)}
    (hrun : openclRun tr n θ ess nbm numChans sgnPos raw) (s c : ℕ) :
    cnt (s, c) raw =
    if ess ≤ s ∧ s - ess < n - 2 * ess ∧ c < numChans ∧
        (if sgnPos then clMaskPos tr θ ess nbm numChans (s - ess) c
         else clMaskNeg tr θ ess nbm numChans (s - ess) c) = true
    then 1 else 0 := by
  rw [mergeN_cnt hrun (s, c)]
  unfold clThreadLists
  rw [List.map_map]
  have hmap : (cnt (s, c) ∘ clThreadRecords tr θ ess nbm numChans sgnPos) =
      fun pos => if s = pos + ess ∧ c < numChans ∧
          (if sgnPos then clMaskPos tr θ ess nbm numChans pos c
           else clMaskNeg tr θ ess nbm numChans pos c) = true
        then 1 else 0 :=
    funext (fun pos =>
      count_clThreadRecords tr θ ess nbm numChans sgnPos pos s c)
  rw [hmap, sum_indicator_unique (n - 2 * ess) _ (s - ess)
    (fun pos hpos => by omega)]
  refine if_congr ?_ rfl rfl
  constructor
  · rintro ⟨hk, he, h3, h4⟩
    exact ⟨by omega, hk, h3, h4⟩
  · rintro ⟨h1, h2, h3, h4⟩
    exact ⟨h2, by omega, h3, h4⟩

theorem clMaskPos_local {tr tr' : Traces} {θ : ℕ → ℚ} {ess : ℕ}
    {nbm : ℕ → ℕ → Bool} {numChans pos pos' c : ℕ}
    (h : ∀ δ c', tr (pos + δ) c' = tr' (pos' + δ) c') :
    clMaskPos tr θ ess nbm numChans pos c =
    clMaskPos tr' θ ess nbm numChans pos' c := by
  unfold clMaskPos
  congr 1
  · rw [h ess c]
  · apply allB_congr
    intro nb _
    congr 1
    congr 1
    · rw [h ess c, h ess nb]
    · apply allB_congr
      intro i hi
      have h1 : tr (pos + ess - (i + 1)) nb =
          tr' (pos' + ess - (i + 1)) nb := by
        have e1 : pos + ess - (i + 1) = pos + (ess - (i + 1)) := by omega
        have e2 : pos' + ess - (i + 1) = pos' + (ess - (i + 1)) := by omega
        rw [e1, e2]
        exact h (ess - (i + 1)) nb
      have h2 : tr (pos + ess + (i + 1)) nb =
          tr' (pos' + ess + (i + 1)) nb := by
        have e1 : pos + ess + (i + 1) = pos + (ess + (i + 1)) := by omega
        have e2 : pos' + ess + (i + 1) = pos' + (ess + (i + 1)) := by omega
        rw [e1, e2]
        exact h (ess + (i + 1)) nb
      rw [h ess c, h1, h2]

theorem clMaskNeg_local {tr tr' : Traces} {θ : ℕ → ℚ} {ess : ℕ}
    {nbm : ℕ → ℕ → Bool} {numChans pos pos' c : ℕ}
    (h : ∀ δ c', tr (pos + δ) c' = tr' (pos' + δ) c') :
    clMaskNeg tr θ ess nbm numChans pos c =
    clMaskNeg tr' θ ess nbm numChans pos' c := by
  unfold clMaskNeg
  congr 1
  · rw [h ess c]
  · apply allB_congr
    intro nb _
    congr 1
    congr 1
    · rw [h ess c, h ess nb]
    · apply allB_congr
      intro i hi
      have h1 : tr (pos + ess - (i + 1)) nb =
          tr' (pos' + ess - (i + 1)) nb := by
        have e1 : pos + ess - (i + 1) = pos + (ess - (i + 1)) := by omega
        have e2 : pos' + ess - (i + 1) = pos' + (ess - (i + 1)) := by omega
        rw [e1, e2]
        exact h (ess - (i + 1)) nb
      have h2 : tr (pos + ess + (i + 1)) nb =
          tr' (pos' + ess + (i + 1)) nb := by
        have e1 : pos + ess + (i + 1) = pos + (ess + (i + 1)) := by omega
        have e2 : pos' + ess + (i + 1) = pos' + (ess + (i + 1)) := by omega
        rw [e1, e2]
        exact h (ess + (i + 1)) nb
      rw [h ess c, h1, h2]

theorem count_openclChunkRun {θ : ℕ → ℚ} {ess extra : ℕ}
    {nbm : ℕ → ℕ → Bool} {numChans : ℕ} {sgnPos : Bool} {rec : Traces}
    {N a b : ℕ} {out : List (ℤ × ℕ)}
    (hout : openclChunkRun θ ess extra nbm numChans sgnPos rec N a b out)
    (g : ℤ) (c : ℕ) :
    cnt (g, c) out =
    if (a : ℤ) ≤ g ∧ g < (b : ℤ) ∧ c < numChans ∧
        clGlobalMask sgnPos θ ess nbm numChans rec N g c = true
    then 1 else 0 := by
  obtain ⟨raw, hraw, rfl⟩ := hout
  have hfun : (fun sc : ℕ × ℕ =>
        (((sc.1 + extra : ℕ) : ℤ) + (a : ℤ) - ((ess + extra : ℕ) : ℤ),
         sc.2)) =
      (fun sc : ℕ × ℕ => ((sc.1 : ℤ) + ((a : ℤ) - (ess : ℤ)), sc.2)) := by
    funext sc
    obtain ⟨s0, c0⟩ := sc
    simp only [Prod.mk.injEq]
    refine ⟨?_, trivial⟩
    push_cast
    ring
  rw [hfun, cnt_map_rebase]
  by_cases hg : (a : ℤ) - (ess : ℤ) ≤ g
  · rw [if_pos hg, count_openclRun hraw]
    by_cases hag : (a : ℤ) ≤ g
    · have hmask : (if sgnPos then
          clMaskPos (fun i c' => paddedRec rec N
            ((a : ℤ) - ((ess + extra : ℕ) : ℤ) + ((i + extra : ℕ) : ℤ)) c')
            θ ess nbm numChans ((g - ((a : ℤ) - (ess : ℤ))).toNat - ess) c
          else
          clMaskNeg (fun i c' => paddedRec rec N
            ((a : ℤ) - ((ess + extra : ℕ) : ℤ) + ((i + extra : ℕ) : ℤ)) c')
            θ ess nbm numChans ((g - ((a : ℤ) - (ess : ℤ))).toNat - ess) c) =
          clGlobalMask sgnPos θ ess nbm numChans rec N g c := by
        have hwin : ∀ δ c',
            (fun i c' => paddedRec rec N
              ((a : ℤ) - ((ess + extra : ℕ) : ℤ) + ((i + extra : ℕ) : ℤ))
              c') (((g - ((a : ℤ) - (ess : ℤ))).toNat - ess) + δ) c' =
            (fun i c' => paddedRec rec N (g - (ess : ℤ) + (i : ℤ)) c')
              (0 + δ) c' := by
          intro δ c'
          show paddedRec rec N
              ((a : ℤ) - ((ess + extra : ℕ) : ℤ)
                + ((((g - ((a : ℤ) - (ess : ℤ))).toNat - ess) + δ + extra :
                    ℕ) : ℤ)) c' =
            paddedRec rec N (g - (ess : ℤ) + ((0 + δ : ℕ) : ℤ)) c'
          have hidx : (a : ℤ) - ((ess + extra : ℕ) : ℤ)
                + ((((g - ((a : ℤ) - (ess : ℤ))).toNat - ess) + δ + extra :
                    ℕ) : ℤ)
              = g - (ess : ℤ) + ((0 + δ : ℕ) : ℤ) := by
            omega
          exact congrArg (fun z => paddedRec rec N z c') hidx
        unfold clGlobalMask
        cases sgnPos
        · simp only [Bool.false_eq_true, if_false]
          exact clMaskNeg_local hwin
        · simp only [if_true]
          exact clMaskPos_local hwin
      rw [hmask]
      refine if_congr ?_ rfl rfl
      constructor
      · rintro ⟨h1, h2, h3, h4⟩
        exact ⟨hag, by omega, h3, h4⟩
      · rintro ⟨h1, h2, h3, h4⟩
        exact ⟨by omega, by omega, h3, h4⟩
    · have hc1 : ¬(ess ≤ (g - ((a : ℤ) - (ess : ℤ))).toNat) := by omega
      rw [if_neg (fun hx => hc1 hx.1), if_neg (fun hx => hag hx.1)]
  · rw [if_neg hg, if_neg (fun hx => hg (by have := hx.1; omega))]

theorem indicator_merge2 (P2 : Prop) [Decidable P2] (x y L g : ℤ)
    (hxy : x ≤ y) (hyL : y ≤ L) :
    ((if x ≤ g ∧ g < y ∧ P2 then 1 else 0) +
      (if y ≤ g ∧ g < L ∧ P2 then 1 else 0) : ℕ) =
    if x ≤ g ∧ g < L ∧ P2 then 1 else 0 := by
  by_cases h2 : P2
  · simp only [h2, and_true]
    split_ifs <;> omega
  · simp [h2]

theorem count_runChunksRel (rel : ℕ → ℕ → List (ℤ × ℕ) → Prop) (g : ℤ)
    (c : ℕ) (P2 : Prop) [Decidable P2]
    (hw : ∀ a b out, rel a b out →
      cnt (g, c) out = if (a : ℤ) ≤ g ∧ g < (b : ℤ) ∧ P2 then 1 else 0) :
    ∀ (ks : List ℕ) (a : ℕ) (out : List (ℤ × ℕ)),
      List.Chain (· < ·) a ks → runChunksRel rel (a :: ks) out →
      cnt (g, c) out =
      if (a : ℤ) ≤ g ∧ g < ((ks.getLastD a : ℕ) : ℤ) ∧ P2 then 1 else 0
  | [], a, out, _, hrun => by
    have h0 : out = [] := hrun
    subst h0
    rw [cnt_nil]
    rw [if_neg]
    rintro ⟨h2, h3, _⟩
    have he : List.getLastD ([] : List ℕ) a = a := rfl
    rw [he] at h3
    omega
  | b :: rest, a, out, hchain, hrun => by
    obtain ⟨hab, hchain'⟩ := List.chain_cons.mp hchain
    obtain ⟨o1, o2, h1, h2, rfl⟩ := hrun
    rw [cnt_append, hw a b o1 h1,
      count_runChunksRel rel g c P2 hw rest b o2 hchain' h2,
      List.getLastD_cons]
    have hbL : b ≤ rest.getLastD b := chain_le_getLastD rest b hchain'
    exact indicator_merge2 P2 _ _ _ _ (by exact_mod_cast le_of_lt hab)
      (by exact_mod_cast hbL)

/-! ### C1 -/

/-- C1 (chunk invariance): for a fixed recording of `N` samples, fixed CPU
detection method (`by_channel` or `locally_exclusive`), fixed parameters
and any extra pipeline margin, running the per-chunk worker over any
partition `0 = k₀ < k₁ < ⋯ < kₘ = N` of the recording (each chunk fetched
with margin `ess + extra ≥ ess`, zero-padded at the true segment
boundaries, local indices re-based by `start_frame - left_margin`) yields a
permutation of — hence exactly the same set of records as, with none
gained, lost or duplicated — the single monolithic worker pass over
`[0, N)`. -/
theorem C1_chunk_invariance (mk : CpuMethodKind) (numChans : ℕ)
    (sign : PeakSign) (θ : ℕ → ℚ) (ess extra : ℕ) (nbm : ℕ → ℕ → Bool)
    (rec : Traces) (N : ℕ) (ks : List ℕ)
    (hchain : List.Chain (· < ·) 0 ks) (hlast : ks.getLastD 0 = N) :
    ((runChunks (cpuChunkWorker mk numChans sign θ ess extra nbm rec N)
        (0 :: ks)).Perm
      (cpuChunkWorker mk numChans sign θ ess extra nbm rec N 0 N)) ∧
    (∀ (sgnPos : Bool) (out mono : List (ℤ × ℕ)),
      runChunksRel (openclChunkRun θ ess extra nbm numChans sgnPos rec N)
        (0 :: ks) out →
      openclChunkRun θ ess extra nbm numChans sgnPos rec N 0 N mono →
      out.Perm mono) := by
  constructor
  · rw [perm_iff_cnt]
    rintro ⟨g, c⟩
    rw [count_runChunks mk numChans sign θ ess extra nbm rec N g c ks 0
        hchain,
      count_cpuChunkWorker, hlast]
  · intro sgnPos out mono hout hmono
    rw [perm_iff_cnt]
    rintro ⟨g, c⟩
    rw [count_runChunksRel (openclChunkRun θ ess extra nbm numChans sgnPos
        rec N) g c
        (c < numChans ∧
          clGlobalMask sgnPos θ ess nbm numChans rec N g c = true)
        (fun a b o ho => count_openclChunkRun ho g c)
        ks 0 out hchain hout,
      count_openclChunkRun hmono, hlast]

/-- Witness for C1: a concrete 4-sample single-channel recording split at
sample 2, against the monolithic pass. -/
theorem C1_chunk_invariance_witness :
    ((runChunks (cpuChunkWorker .by_channel 1 .pos θ0 1 0
        (fun _ _ => true) trW1 4) (0 :: [2, 4])).Perm
      (cpuChunkWorker .by_channel 1 .pos θ0 1 0
        (fun _ _ => true) trW1 4 0 4)) ∧
    (([] ++ ([(2, 0)] ++ [])) : List (ℤ × ℕ)).Perm [(2, 0)] :=
  ⟨(C1_chunk_invariance .by_channel 1 .pos θ0 1 0 (fun _ _ => true) trW1 4
      [2, 4]
      (List.chain_cons.mpr ⟨by norm_num,
        List.chain_cons.mpr ⟨by norm_num, List.Chain.nil⟩⟩)
      rfl).1,
   (C1_chunk_invariance .by_channel 1 .pos θ0 1 0 (fun _ _ => true) trW1 4
      [2, 4]
      (List.chain_cons.mpr ⟨by norm_num,
        List.chain_cons.mpr ⟨by norm_num, List.Chain.nil⟩⟩)
      rfl).2 true ([] ++ ([(2, 0)] ++ [])) [(2, 0)]
     ⟨[], [(2, 0)] ++ [],
      ⟨[], by
        unfold openclRun
        rw [show clThreadLists (fun i c => paddedRec trW1 4
            (((0 : ℕ) : ℤ) - ((1 + 0 : ℕ) : ℤ) + ((i + 0 : ℕ) : ℤ)) c)
            ((2 - 0) + 2 * (1 + 0) - 2 * 0) θ0 1 (fun _ _ => true) 1 true =
          [[], []] from by decide]
        exact mergeN_flatten [[], []], rfl⟩,
      ⟨[(2, 0)], [],
       ⟨[(1, 0)], by
          unfold openclRun
          rw [show clThreadLists (fun i c => paddedRec trW1 4
              (((2 : ℕ) : ℤ) - ((1 + 0 : ℕ) : ℤ) + ((i + 0 : ℕ) : ℤ)) c)
              ((4 - 2) + 2 * (1 + 0) - 2 * 0) θ0 1 (fun _ _ => true) 1
              true = [[(1, 0)], []] from by decide]
          exact mergeN_flatten [[(1, 0)], []], by decide⟩,
       rfl, rfl⟩,
      rfl⟩
     ⟨[(3, 0)], by
        unfold openclRun
        rw [show clThreadLists (fun i c => paddedRec trW1 4
            (((0 : ℕ) : ℤ) - ((1 + 0 : ℕ) : ℤ) + ((i + 0 : ℕ) : ℤ)) c)
            ((4 - 0) + 2 * (1 + 0) - 2 * 0) θ0 1 (fun _ _ => true) 1 true =
          [[], [], [(3, 0)], []] from by decide]
        exact mergeN_flatten [[], [], [(3, 0)], []], by decide⟩⟩

/-! ### C2 -/

theorem window_reindex (P : ℕ → Prop) (s0 ess : ℕ) :
    (∀ i < ess, P (s0 + i)) ↔ (∀ i < ess, P (s0 + ess - (i + 1))) := by
  constructor
  · intro h i hi
    have e : s0 + ess - (i + 1) = s0 + (ess - i - 1) := by omega
    rw [e]
    exact h _ (by omega)
  · intro h i hi
    have e : s0 + i = s0 + ess - ((ess - i - 1) + 1) := by omega
    rw [e]
    exact h _ (by omega)

theorem bcMaskPos_iff {tr : Traces} {θ : ℕ → ℚ} {ess s0 c : ℕ} :
    bcMaskPos tr θ ess s0 c = true ↔ bcClaimedPos tr θ ess (s0 + ess) c := by
  unfold bcMaskPos bcClaimedPos
  simp only [Bool.and_eq_true, decide_eq_true_iff, allB_eq_true]
  constructor
  · rintro ⟨h1, h2⟩
    exact ⟨h1,
      (window_reindex (fun k => tr k c < tr (s0 + ess) c) s0 ess).mp
        (fun i hi => (h2 i hi).1),
      fun i hi => (h2 i hi).2⟩
  · rintro ⟨h1, h2, h3⟩
    exact ⟨h1, fun i hi =>
      ⟨(window_reindex (fun k => tr k c < tr (s0 + ess) c) s0 ess).mpr h2 i hi,
       h3 i hi⟩⟩

theorem bcMaskNeg_iff {tr : Traces} {θ : ℕ → ℚ} {ess s0 c : ℕ} :
    bcMaskNeg tr θ ess s0 c = true ↔ bcClaimedNeg tr θ ess (s0 + ess) c := by
  unfold bcMaskNeg bcClaimedNeg
  simp only [Bool.and_eq_true, decide_eq_true_iff, allB_eq_true]
  constructor
  · rintro ⟨h1, h2⟩
    exact ⟨h1,
      (window_reindex (fun k => tr (s0 + ess) c < tr k c) s0 ess).mp
        (fun i hi => (h2 i hi).1),
      fun i hi => (h2 i hi).2⟩
  · rintro ⟨h1, h2, h3⟩
    exact ⟨h1, fun i hi =>
      ⟨(window_reindex (fun k => tr (s0 + ess) c < tr k c) s0 ess).mpr h2 i hi,
       h3 i hi⟩⟩

theorem bcMask_iff_claimed {sign : PeakSign} {tr : Traces} {θ : ℕ → ℚ}
    {ess s0 c : ℕ} :
    bcMask sign tr θ ess s0 c = true ↔
    bcClaimedSign sign tr θ ess (s0 + ess) c := by
  cases sign <;> simp only [bcMask, bcClaimedSign]
  · exact bcMaskPos_iff
  · exact bcMaskNeg_iff
  · rw [Bool.or_eq_true]
    exact or_congr bcMaskPos_iff bcMaskNeg_iff

/-- C2 counterexample: the claim as stated fails at
`exclude_sweep_size = 0`.  On a one-sample block whose value crosses the
threshold, the claimed predicate holds at `(0, 0)` (the interior region
`[0, 1)` is nonempty and the window conditions are vacuous), yet
`detect_peaks` reports nothing, because the Python slice
`traces[0:-0, :]` — i.e. `traces[0:0, :]` — is empty. -/
theorem C2_counterexample :
    ¬ (((0, 0) ∈ DetectPeakByChannel.detect_peaks tr1 1 1 .pos θ0 0) ↔
       bcClaimedPeak .pos tr1 θ0 0 1 0 0) := by
  decide

/-- C2 (amended: requires `exclude_sweep_size ≥ 1`; the counterexample
shows the stated equivalence fails for `exclude_sweep_size = 0`, where the
code reports nothing): for every trace block of `n ≥ 2*ess + 1` rows and
`numChans` channels, the by-channel method reports `(s, c)` iff `c` is a
channel of the block and the claimed interior/threshold/window predicate
holds, for every `peak_sign`. -/
theorem C2_by_channel_predicate (tr : Traces) (n numChans : ℕ)
    (sign : PeakSign) (θ : ℕ → ℚ) (ess s c : ℕ) (hess : 1 ≤ ess)
    (hn : 2 * ess + 1 ≤ n) :
    ((s, c) ∈ DetectPeakByChannel.detect_peaks tr n numChans sign θ ess) ↔
    (c < numChans ∧ bcClaimedPeak sign tr θ ess n s c) := by
  have hcen : centerLen n ess = n - 2 * ess := by
    unfold centerLen
    rw [if_neg (by omega)]
  rw [mem_bc_detect]
  unfold bcClaimedPeak
  constructor
  · rintro ⟨s0, hs0, hc, rfl, hm⟩
    rw [hcen] at hs0
    exact ⟨hc, by omega, by omega, bcMask_iff_claimed.mp hm⟩
  · rintro ⟨hc, h1, h2, h3⟩
    refine ⟨s - ess, ?_, hc, by omega, ?_⟩
    · rw [hcen]
      omega
    · apply bcMask_iff_claimed.mpr
      have hs : s - ess + ess = s := by omega
      rw [hs]
      exact h3

/-- Witness for C2 at a concrete block: peak at sample 2 of a 5-sample
single-channel block with `exclude_sweep_size = 1`. -/
theorem C2_by_channel_predicate_witness :
    ((2, 0) ∈ DetectPeakByChannel.detect_peaks trW1 5 1 .pos θ0 1) ↔
    (0 < 1 ∧ bcClaimedPeak .pos trW1 θ0 1 5 2 0) :=
  C2_by_channel_predicate trW1 5 1 .pos θ0 1 2 0 (by decide) (by decide)

/-! ### C4 -/

theorem centerLen_pos_ess {n ess s0 : ℕ} (hs0 : s0 < centerLen n ess) :
    1 ≤ ess := by
  by_contra h
  have he : ess = 0 := by omega
  rw [he] at hs0
  unfold centerLen at hs0
  simp at hs0

theorem leMaskPos_iff {tr : Traces} {θ : ℕ → ℚ} {ess : ℕ}
    {nbm : ℕ → ℕ → Bool} {numChans s0 c : ℕ} (hess : 1 ≤ ess) :
    leMaskPos tr θ ess nbm numChans s0 c = true ↔
    (θ c < tr (s0 + ess) c ∧
     ∀ nb < numChans, nbm c nb = true →
       ((∀ i < ess, tr (s0 + ess - (i + 1)) nb < tr (s0 + ess) c ∧
           tr (s0 + ess + i + 1) nb ≤ tr (s0 + ess) c) ∧
        (c ≠ nb → tr (s0 + ess) nb ≤ tr (s0 + ess) c))) := by
  unfold leMaskPos
  simp only [Bool.and_eq_true, Bool.or_eq_true, Bool.not_eq_eq_eq_not,
    Bool.not_true, allB_eq_true, decide_eq_true_iff]
  constructor
  · rintro ⟨h1, h2⟩
    refine ⟨h1, fun nb hnb hmask => ?_⟩
    rcases h2 nb hnb with hfalse | hinner
    · rw [hmask] at hfalse
      cases hfalse
    · constructor
      · intro i hi
        refine ⟨?_, (hinner i hi).2⟩
        have := (window_reindex
            (fun k => tr k nb < tr (s0 + ess) c) s0 ess).mp
          (fun j hj => (hinner j hj).1.2)
        exact this i hi
      · intro hne
        rcases (hinner 0 (by omega)).1.1 with he | hle
        · exact absurd he hne
        · exact hle
  · rintro ⟨h1, h2⟩
    refine ⟨h1, fun nb hnb => ?_⟩
    by_cases hmask : nbm c nb = true
    · refine Or.inr (fun i hi => ?_)
      obtain ⟨hwin, htie⟩ := h2 nb hnb hmask
      refine ⟨⟨?_, ?_⟩, (hwin i hi).2⟩
      · by_cases hce : c = nb
        · exact Or.inl hce
        · exact Or.inr (htie hce)
      · exact (window_reindex
            (fun k => tr k nb < tr (s0 + ess) c) s0 ess).mpr
          (fun j hj => (hwin j hj).1) i hi
    · exact Or.inl (by revert hmask; cases nbm c nb <;> simp)

theorem leMaskNeg_iff {tr : Traces} {θ : ℕ → ℚ} {ess : ℕ}
    {nbm : ℕ → ℕ → Bool} {numChans s0 c : ℕ} (hess : 1 ≤ ess) :
    leMaskNeg tr θ ess nbm numChans s0 c = true ↔
    (tr (s0 + ess) c < -θ c ∧
     ∀ nb < numChans, nbm c nb = true →
       ((∀ i < ess, tr (s0 + ess) c < tr (s0 + ess - (i + 1)) nb ∧
           tr (s0 + ess) c ≤ tr (s0 + ess + i + 1) nb) ∧
        (c ≠ nb → tr (s0 + ess) c ≤ tr (s0 + ess) nb))) := by
  unfold leMaskNeg
  simp only [Bool.and_eq_true, Bool.or_eq_true, Bool.not_eq_eq_eq_not,
    Bool.not_true, allB_eq_true, decide_eq_true_iff]
  constructor
  · rintro ⟨h1, h2⟩
    refine ⟨h1, fun nb hnb hmask => ?_⟩
    rcases h2 nb hnb with hfalse | hinner
    · rw [hmask] at hfalse
      cases hfalse
    · constructor
      · intro i hi
        refine ⟨?_, (hinner i hi).2⟩
        have := (window_reindex
            (fun k => tr (s0 + ess) c < tr k nb) s0 ess).mp
          (fun j hj => (hinner j hj).1.2)
        exact this i hi
      · intro hne
        rcases (hinner 0 (by omega)).1.1 with he | hle
        · exact absurd he hne
        · exact hle
  · rintro ⟨h1, h2⟩
    refine ⟨h1, fun nb hnb => ?_⟩
    by_cases hmask : nbm c nb = true
    · refine Or.inr (fun i hi => ?_)
      obtain ⟨hwin, htie⟩ := h2 nb hnb hmask
      refine ⟨⟨?_, ?_⟩, (hwin i hi).2⟩
      · by_cases hce : c = nb
        · exact Or.inl hce
        · exact Or.inr (htie hce)
      · exact (window_reindex
            (fun k => tr (s0 + ess) c < tr k nb) s0 ess).mpr
          (fun j hj => (hwin j hj).1) i hi
    · exact Or.inl (by revert hmask; cases nbm c nb <;> simp)

theorem mem_le_detect_fixed {tr : Traces} {n numChans : ℕ} {sign : PeakSign}
    {θ : ℕ → ℚ} {ess : ℕ} {nbm : ℕ → ℕ → Bool} {s0 c : ℕ}
    (hs0 : s0 < centerLen n ess) (hc : c < numChans) :
    ((s0 + ess, c) ∈
      DetectPeakLocallyExclusive.detect_peaks tr n numChans sign θ ess nbm) ↔
    leMask sign tr θ ess nbm numChans s0 c = true := by
  rw [mem_le_detect]
  constructor
  · rintro ⟨s0', _, _, heq, hm⟩
    have he : s0' = s0 := by omega
    rwa [he] at hm
  · intro hm
    exact ⟨s0, hs0, hc, rfl, hm⟩

/-- C4 (locally-exclusive spatial predicate and tie-break): a candidate
`(s0 + ess, c)` of the center region that passes the per-sign threshold
test is reported by `DetectPeakLocallyExclusive` iff, for every neighbour
channel `nb` with `neighbours_mask[c, nb]`, it is a local extremum
relative to `nb`'s samples over the exclusion window and, when `nb ≠ c`,
dominates `nb` at the same sample under the own-channel-passes tie-break
(`≥` for positive sign, `≤` for negative). -/
theorem C4_locally_exclusive_predicate (tr : Traces) (n numChans : ℕ)
    (θ : ℕ → ℚ) (ess : ℕ) (nbm : ℕ → ℕ → Bool) (s0 c : ℕ)
    (hs0 : s0 < centerLen n ess) (hc : c < numChans) :
    (θ c < tr (s0 + ess) c →
      (((s0 + ess, c) ∈ DetectPeakLocallyExclusive.detect_peaks tr n numChans
          .pos θ ess nbm) ↔
       ∀ nb < numChans, nbm c nb = true →
         ((∀ i < ess, tr (s0 + ess - (i + 1)) nb < tr (s0 + ess) c ∧
             tr (s0 + ess + i + 1) nb ≤ tr (s0 + ess) c) ∧
          (c ≠ nb → tr (s0 + ess) nb ≤ tr (s0 + ess) c)))) ∧
    (tr (s0 + ess) c < -θ c →
      (((s0 + ess, c) ∈ DetectPeakLocallyExclusive.detect_peaks tr n numChans
          .neg θ ess nbm) ↔
       ∀ nb < numChans, nbm c nb = true →
         ((∀ i < ess, tr (s0 + ess) c < tr (s0 + ess - (i + 1)) nb ∧
             tr (s0 + ess) c ≤ tr (s0 + ess + i + 1) nb) ∧
          (c ≠ nb → tr (s0 + ess) c ≤ tr (s0 + ess) nb)))) := by
  have hess : 1 ≤ ess := centerLen_pos_ess hs0
  constructor
  · intro hthr
    rw [mem_le_detect_fixed hs0 hc]
    simp only [leMask]
    rw [leMaskPos_iff hess]
    exact ⟨fun h => h.2, fun h => ⟨hthr, h⟩⟩
  · intro hthr
    rw [mem_le_detect_fixed hs0 hc]
    simp only [leMask]
    rw [leMaskNeg_iff hess]
    exact ⟨fun h => h.2, fun h => ⟨hthr, h⟩⟩

/-- Witness for C4 at a concrete two-channel block. -/
theorem C4_locally_exclusive_predicate_witness :
    (θ0 0 < trC4 (0 + 1) 0 →
      (((0 + 1, 0) ∈ DetectPeakLocallyExclusive.detect_peaks trC4 3 2
          .pos θ0 1 (fun _ _ => true)) ↔
       ∀ nb < 2, (fun _ _ => true : ℕ → ℕ → Bool) 0 nb = true →
         ((∀ i < 1, trC4 (0 + 1 - (i + 1)) nb < trC4 (0 + 1) 0 ∧
             trC4 (0 + 1 + i + 1) nb ≤ trC4 (0 + 1) 0) ∧
          (0 ≠ nb → trC4 (0 + 1) nb ≤ trC4 (0 + 1) 0)))) ∧
    (trC4 (0 + 1) 0 < -θ0 0 →
      (((0 + 1, 0) ∈ DetectPeakLocallyExclusive.detect_peaks trC4 3 2
          .neg θ0 1 (fun _ _ => true)) ↔
       ∀ nb < 2, (fun _ _ => true : ℕ → ℕ → Bool) 0 nb = true →
         ((∀ i < 1, trC4 (0 + 1) 0 < trC4 (0 + 1 - (i + 1)) nb ∧
             trC4 (0 + 1) 0 ≤ trC4 (0 + 1 + i + 1) nb) ∧
          (0 ≠ nb → trC4 (0 + 1) 0 ≤ trC4 (0 + 1) nb)))) :=
  C4_locally_exclusive_predicate trC4 3 2 θ0 1 (fun _ _ => true) 0 0
    (by decide) (by decide)

/-! ### C5 -/

theorem bc_no_close_pair_pos (tr : Traces) (θ : ℕ → ℚ) (ess s0 s0' c : ℕ)
    (hlt : s0 < s0') (hd : s0' ≤ s0 + ess)
    (hm : bcMaskPos tr θ ess s0 c = true)
    (hm' : bcMaskPos tr θ ess s0' c = true) : False := by
  unfold bcMaskPos at hm hm'
  simp only [Bool.and_eq_true, allB_eq_true, decide_eq_true_iff] at hm hm'
  obtain ⟨_, hw⟩ := hm
  obtain ⟨_, hw'⟩ := hm'
  have hup := (hw (s0' - s0 - 1) (by omega)).2
  have hlo := (hw' (s0 + ess - s0') (by omega)).1
  have e1 : s0 + ess + (s0' - s0 - 1) + 1 = s0' + ess := by omega
  have e2 : s0' + (s0 + ess - s0') = s0 + ess := by omega
  rw [e1] at hup
  rw [e2] at hlo
  linarith

theorem bc_no_close_pair_neg (tr : Traces) (θ : ℕ → ℚ) (ess s0 s0' c : ℕ)
    (hlt : s0 < s0') (hd : s0' ≤ s0 + ess)
    (hm : bcMaskNeg tr θ ess s0 c = true)
    (hm' : bcMaskNeg tr θ ess s0' c = true) : False := by
  unfold bcMaskNeg at hm hm'
  simp only [Bool.and_eq_true, allB_eq_true, decide_eq_true_iff] at hm hm'
  obtain ⟨_, hw⟩ := hm
  obtain ⟨_, hw'⟩ := hm'
  have hup := (hw (s0' - s0 - 1) (by omega)).2
  have hlo := (hw' (s0 + ess - s0') (by omega)).1
  have e1 : s0 + ess + (s0' - s0 - 1) + 1 = s0' + ess := by omega
  have e2 : s0' + (s0 + ess - s0') = s0 + ess := by omega
  rw [e1] at hup
  rw [e2] at hlo
  linarith

/-- C5 counterexample: with `peak_sign = 'both'` the by-channel method
reports a positive peak at sample 2 and a negative peak at sample 3 on the
same channel, one sample apart, although `exclude_sweep_size = 2`. -/
theorem C5_counterexample :
    ((2, 0) ∈ DetectPeakByChannel.detect_peaks trC5 7 1 .both θ0 2) ∧
    ((3, 0) ∈ DetectPeakByChannel.detect_peaks trC5 7 1 .both θ0 2) ∧
    ¬ ((2 : ℤ) ≤ |(2 : ℤ) - (3 : ℤ)|) := by
  decide

/-- C5 (amended: the separation guarantee holds for `peak_sign` `'pos'` and
`'neg'`; under `'both'` a positive and a negative peak may be closer, as
the counterexample shows): two distinct same-channel peaks of one
by-channel run are at least `exclude_sweep_size` samples apart. -/
theorem C5_temporal_exclusivity (tr : Traces) (n numChans : ℕ)
    (sign : PeakSign) (θ : ℕ → ℚ) (ess : ℕ) (s s' c : ℕ)
    (hsign : sign ≠ PeakSign.both)
    (h1 : (s, c) ∈ DetectPeakByChannel.detect_peaks tr n numChans sign θ ess)
    (h2 : (s', c) ∈ DetectPeakByChannel.detect_peaks tr n numChans sign θ ess)
    (hne : s ≠ s') :
    (ess : ℤ) ≤ |(s : ℤ) - (s' : ℤ)| := by
  rw [mem_bc_detect] at h1 h2
  obtain ⟨s0, hs0, hc, hseq, hm⟩ := h1
  obtain ⟨s0', hs0', _, hseq', hm'⟩ := h2
  subst hseq
  subst hseq'
  by_contra habs
  push_neg at habs
  rcases lt_trichotomy s0 s0' with hlt | heq | hgt
  · have hd : s0' ≤ s0 + ess := by
      rw [abs_sub_comm, abs_of_nonneg (by push_cast; omega)] at habs
      push_cast at habs
      omega
    cases sign with
    | both => exact hsign rfl
    | pos => exact bc_no_close_pair_pos tr θ ess s0 s0' c hlt hd hm hm'
    | neg => exact bc_no_close_pair_neg tr θ ess s0 s0' c hlt hd hm hm'
  · exact hne (by omega)
  · have hd : s0 ≤ s0' + ess := by
      rw [abs_of_nonneg (by push_cast; omega)] at habs
      push_cast at habs
      omega
    cases sign with
    | both => exact hsign rfl
    | pos => exact bc_no_close_pair_pos tr θ ess s0' s0 c hgt hd hm' hm
    | neg => exact bc_no_close_pair_neg tr θ ess s0' s0 c hgt hd hm' hm

/-- Witness for C5 on a concrete `'pos'` run with two distant peaks. -/
theorem C5_temporal_exclusivity_witness :
    (1 : ℤ) ≤ |(1 : ℤ) - (4 : ℤ)| :=
  C5_temporal_exclusivity trC5w 6 1 .pos θ0 1 1 4 0 (by decide) (by decide)
    (by decide) (by decide)

/-! ### C6 -/

/-- C6 counterexample: `exclude_sweep_size` is computed with Python
`int()`, which truncates; it is not rounded to the nearest integer.  At
`exclude_sweep_ms = 1`, `fs = 1900` the product is `1.9`: the code yields
`1`, rounding to nearest would yield `2`. -/
theorem C6_counterexample :
    (DetectPeakByChannel.check_params (fun _ => 1) 5 1 1900).2 = 1 ∧
    round ((1 : ℚ) * 1900 / 1000) = 2 ∧
    (DetectPeakByChannel.check_params (fun _ => 1) 5 1 1900).2 ≠
      round ((1 : ℚ) * 1900 / 1000) := by
  unfold DetectPeakByChannel.check_params pyInt
  norm_num [round_eq]

/-- C6 (amended: the exclusion window is the truncation — floor, for the
non-negative values arising here — of `exclude_sweep_ms * fs / 1000`, not
its rounding to the nearest integer): `check_params` returns per-channel
thresholds `noise_levels[c] * detect_threshold` and
`exclude_sweep_size = ⌊exclude_sweep_ms * fs / 1000⌋`. -/
theorem C6_check_params (noise : ℕ → ℚ) (t ms fs : ℚ) (c : ℕ)
    (hms : 0 ≤ ms * fs) :
    (DetectPeakByChannel.check_params noise t ms fs).1 c = noise c * t ∧
    (DetectPeakByChannel.check_params noise t ms fs).2 =
      ⌊ms * fs / 1000⌋ := by
  refine ⟨rfl, ?_⟩
  unfold DetectPeakByChannel.check_params pyInt
  rw [if_pos (by positivity)]

/-- Witness for C6 at concrete parameters. -/
theorem C6_check_params_witness :
    (DetectPeakByChannel.check_params (fun _ => 2) 5 1 1900).1 0 = 2 * 5 ∧
    (DetectPeakByChannel.check_params (fun _ => 2) 5 1 1900).2 =
      ⌊(1 : ℚ) * 1900 / 1000⌋ :=
  C6_check_params (fun _ => 2) 5 1 1900 0 (by norm_num)

/-! ### C7 -/

theorem bc_detect_nodup {tr : Traces} {n numChans : ℕ} {sign : PeakSign}
    {θ : ℕ → ℚ} {ess : ℕ} :
    (DetectPeakByChannel.detect_peaks tr n numChans sign θ ess).Nodup := by
  unfold DetectPeakByChannel.detect_peaks
  refine List.Nodup.map ?_ npNonzero_nodup
  rintro ⟨s1, c1⟩ ⟨s2, c2⟩ h
  simp only [Prod.mk.injEq] at h ⊢
  exact ⟨by omega, h.2⟩

theorem le_detect_nodup {tr : Traces} {n numChans : ℕ} {sign : PeakSign}
    {θ : ℕ → ℚ} {ess : ℕ} {nbm : ℕ → ℕ → Bool} :
    (DetectPeakLocallyExclusive.detect_peaks tr n numChans sign θ ess
      nbm).Nodup := by
  unfold DetectPeakLocallyExclusive.detect_peaks
  refine List.Nodup.map ?_ npNonzero_nodup
  rintro ⟨s1, c1⟩ ⟨s2, c2⟩ h
  simp only [Prod.mk.injEq] at h ⊢
  exact ⟨by omega, h.2⟩

/-- C7 (sign symmetry): for either CPU method, the peak set of a
`peak_sign = 'both'` run is exactly the union of the `'pos'` and `'neg'`
runs on the same block — no omissions (membership equivalence) and no
duplicates (the `'both'` output list is duplicate-free). -/
theorem C7_sign_symmetry (tr : Traces) (n numChans : ℕ) (θ : ℕ → ℚ)
    (ess : ℕ) (nbm : ℕ → ℕ → Bool) :
    ((∀ p : ℕ × ℕ,
      p ∈ DetectPeakByChannel.detect_peaks tr n numChans .both θ ess ↔
      (p ∈ DetectPeakByChannel.detect_peaks tr n numChans .pos θ ess ∨
       p ∈ DetectPeakByChannel.detect_peaks tr n numChans .neg θ ess)) ∧
     (DetectPeakByChannel.detect_peaks tr n numChans .both θ ess).Nodup) ∧
    ((∀ p : ℕ × ℕ,
      p ∈ DetectPeakLocallyExclusive.detect_peaks tr n numChans .both θ ess
          nbm ↔
      (p ∈ DetectPeakLocallyExclusive.detect_peaks tr n numChans .pos θ ess
          nbm ∨
       p ∈ DetectPeakLocallyExclusive.detect_peaks tr n numChans .neg θ ess
          nbm)) ∧
     (DetectPeakLocallyExclusive.detect_peaks tr n numChans .both θ ess
        nbm).Nodup) := by
  refine ⟨⟨?_, bc_detect_nodup⟩, ⟨?_, le_detect_nodup⟩⟩
  · rintro ⟨s, c⟩
    rw [mem_bc_detect, mem_bc_detect, mem_bc_detect]
    constructor
    · rintro ⟨s0, h1, h2, h3, hm⟩
      simp only [bcMask] at hm
      rw [Bool.or_eq_true] at hm
      rcases hm with h | h
      · exact Or.inl ⟨s0, h1, h2, h3, h⟩
      · exact Or.inr ⟨s0, h1, h2, h3, h⟩
    · rintro (⟨s0, h1, h2, h3, hm⟩ | ⟨s0, h1, h2, h3, hm⟩)
      · exact ⟨s0, h1, h2, h3, by simp only [bcMask] at hm ⊢; rw [hm]; rfl⟩
      · exact ⟨s0, h1, h2, h3,
          by simp only [bcMask] at hm ⊢; rw [hm]; exact Bool.or_true _⟩
  · rintro ⟨s, c⟩
    rw [mem_le_detect, mem_le_detect, mem_le_detect]
    constructor
    · rintro ⟨s0, h1, h2, h3, hm⟩
      simp only [leMask] at hm
      rw [Bool.or_eq_true] at hm
      rcases hm with h | h
      · exact Or.inl ⟨s0, h1, h2, h3, h⟩
      · exact Or.inr ⟨s0, h1, h2, h3, h⟩
    · rintro (⟨s0, h1, h2, h3, hm⟩ | ⟨s0, h1, h2, h3, hm⟩)
      · exact ⟨s0, h1, h2, h3, by simp only [leMask] at hm ⊢; rw [hm]; rfl⟩
      · exact ⟨s0, h1, h2, h3,
          by simp only [leMask] at hm ⊢; rw [hm]; exact Bool.or_true _⟩

/-! ### C8 -/

/-- C8 counterexample: `peak_sign = 'both'` with the GPU method is a
parameter combination the backend cannot execute, yet it passes the whole
setup phase (`check_params` succeeds); the kernel sign lookup
`{'pos': 1, 'neg': -1}[peak_sign]` has no entry for it, so the failure (a
`KeyError` in `create_buffers_and_compile`) only occurs inside the first
chunk worker invocation, not before scheduling. -/
theorem C8_counterexample :
    detect_peaks_setup ⟨true, true⟩ .locally_exclusive_cl "both" none =
      .ok 0 ∧
    openclSignCode "both" = none :=
  ⟨rfl, rfl⟩

/-- C8 (amended: invalid `peak_sign` values and unavailable backend
dependencies do fail during setup, before any chunk is scheduled; but
`'both'` on the GPU variant is an exception — it passes `check_params` and
fails only at first-chunk kernel compilation, as the counterexample
shows): setup fails for every method on an invalid sign, for
`locally_exclusive` without numba, and for `locally_exclusive_cl` without
pyopencl. -/
theorem C8_config_errors (deps : Deps) (m : MethodName) (sign : String)
    (pm : Option (List ℕ)) :
    (signStrValid sign = false →
      ∃ e, detect_peaks_setup deps m sign pm = .error e) ∧
    (deps.haveNumba = false →
      ∃ e, detect_peaks_setup deps .locally_exclusive sign pm = .error e) ∧
    (deps.havePyopencl = false → signStrValid sign = true →
      ∃ e, detect_peaks_setup deps .locally_exclusive_cl sign pm =
        .error e) := by
  refine ⟨?_, ?_, ?_⟩
  · intro hs
    cases m
    · exact ⟨"assert peak_sign failed",
        by simp [detect_peaks_setup, checkParamsOutcome, hs]⟩
    · cases hnb : deps.haveNumba
      · exact ⟨"locally_exclusive needs numba",
          by simp [detect_peaks_setup, checkParamsOutcome, hnb]⟩
      · exact ⟨"assert peak_sign failed",
          by simp [detect_peaks_setup, checkParamsOutcome, hs, hnb]⟩
    · exact ⟨"assert peak_sign failed",
        by simp [detect_peaks_setup, checkParamsOutcome, hs]⟩
  · intro hn
    exact ⟨"locally_exclusive needs numba",
      by simp [detect_peaks_setup, checkParamsOutcome, hn]⟩
  · intro hcl hs
    exact ⟨"No module named pyopencl",
      by simp [detect_peaks_setup, checkParamsOutcome, hcl, hs]⟩

/-- Witness for C8: concrete failing configurations of each kind. -/
theorem C8_config_errors_witness :
    (∃ e, detect_peaks_setup ⟨true, true⟩ .by_channel "weird" none =
      .error e) ∧
    (∃ e, detect_peaks_setup ⟨false, true⟩ .locally_exclusive "neg" none =
      .error e) ∧
    (∃ e, detect_peaks_setup ⟨true, false⟩ .locally_exclusive_cl "neg"
      none = .error e) :=
  ⟨(C8_config_errors ⟨true, true⟩ .by_channel "weird" none).1 (by decide),
   (C8_config_errors ⟨false, true⟩ .locally_exclusive "neg" none).2.1 rfl,
   (C8_config_errors ⟨true, false⟩ .locally_exclusive_cl "neg" none).2.2
     rfl (by decide)⟩

/-! ### C10 -/

/-- C10 (empty pipeline-node list): for every method, calling
`detect_peaks` with `pipeline_nodes = []` (rather than `None`) fails
during setup — `[]` is not `None`, so the extra-margin computation runs
`max()` over an empty sequence and raises `ValueError` before any chunk is
scheduled — while `pipeline_nodes = None` sets the extra margin to 0 and
proceeds. -/
theorem C10_empty_pipeline_list (m : MethodName) :
    detect_peaks_setup ⟨true, true⟩ m "neg" (some []) =
      .error "ValueError: max() arg is an empty sequence" ∧
    detect_peaks_setup ⟨true, true⟩ m "neg" none = .ok 0 := by
  cases m <;> exact ⟨rfl, rfl⟩

/-! ### C9 -/

/-- C9 counterexample: the claim covers every detection method, but the
OpenCL kernel appends peak records through `atomic_inc` from concurrently
scheduled device threads, so the returned order is an interleaving chosen
by the scheduler.  On a block with peaks at samples 1 and 3, the schedule
that runs the later thread first is a valid interleaving of the per-thread
record lists, and its output `[(3,0), (1,0)]` is not in ascending
`(sample_index, channel_index)` order. -/
theorem C9_counterexample :
    openclRun trC9 5 θ0 1 (fun _ _ => true) 1 true [(3, 0), (1, 0)] ∧
    ¬ ([(3, 0), (1, 0)] : List (ℕ × ℕ)).Pairwise pairLex := by
  constructor
  · unfold openclRun
    have h : clThreadLists trC9 5 θ0 1 (fun _ _ => true) 1 true =
        [[(1, 0)], [], [(3, 0)]] := by decide
    rw [h]
    exact ⟨[(3, 0)],
      ⟨[(3, 0)], ⟨[], rfl, Merge2.left _ _ _ _ Merge2.nil⟩,
        Merge2.right _ _ _ _ Merge2.nil⟩,
      Merge2.right _ _ _ _ (Merge2.left _ _ _ _ Merge2.nil)⟩
  · decide

/-- C9 (amended: the ascending `(sample_index, channel_index)` order holds
for the two CPU methods, whose records come from `np.nonzero` in row-major
order; the OpenCL method's record order depends on the device scheduling —
only the record multiset is determined — as the counterexample shows):
both CPU methods emit their per-chunk records strictly sorted by sample
index, then channel index. -/
theorem C9_cpu_output_sorted (tr : Traces) (n numChans : ℕ)
    (sign : PeakSign) (θ : ℕ → ℚ) (ess : ℕ) (nbm : ℕ → ℕ → Bool) :
    (DetectPeakByChannel.detect_peaks tr n numChans sign θ
        ess).Pairwise pairLex ∧
    (DetectPeakLocallyExclusive.detect_peaks tr n numChans sign θ ess
        nbm).Pairwise pairLex := by
  constructor
  · unfold DetectPeakByChannel.detect_peaks
    refine List.Pairwise.map _ ?_ npNonzero_sorted
    rintro ⟨s1, c1⟩ ⟨s2, c2⟩ h
    rcases h with h | ⟨he, h2⟩
    · exact Or.inl (by simpa using Nat.add_lt_add_right h ess)
    · exact Or.inr ⟨by simpa using he, h2⟩
  · unfold DetectPeakLocallyExclusive.detect_peaks
    refine List.Pairwise.map _ ?_ npNonzero_sorted
    rintro ⟨s1, c1⟩ ⟨s2, c2⟩ h
    rcases h with h | ⟨he, h2⟩
    · exact Or.inl (by simpa using Nat.add_lt_add_right h ess)
    · exact Or.inr ⟨by simpa using he, h2⟩

/-! ### C3 -/

theorem mem_clThreadRecords {tr : Traces} {θ : ℕ → ℚ} {ess : ℕ}
    {nbm : ℕ → ℕ → Bool} {numChans : ℕ} {sgnPos : Bool} {pos s c : ℕ} :
    (s, c) ∈ clThreadRecords tr θ ess nbm numChans sgnPos pos ↔
    s = pos + ess ∧ c < numChans ∧
      (if sgnPos then clMaskPos tr θ ess nbm numChans pos c
       else clMaskNeg tr θ ess nbm numChans pos c) = true := by
  unfold clThreadRecords
  simp only [List.mem_filterMap, List.mem_range]
  constructor
  · rintro ⟨c', hc', h⟩
    by_cases hm : (if sgnPos then clMaskPos tr θ ess nbm numChans pos c'
        else clMaskNeg tr θ ess nbm numChans pos c') = true
    · simp only [hm, if_true, Option.some.injEq, Prod.mk.injEq] at h
      obtain ⟨rfl, rfl⟩ := h
      exact ⟨rfl, hc', hm⟩
    · simp [hm] at h
  · rintro ⟨rfl, hc, hm⟩
    exact ⟨c, hc, by simp [hm]⟩

/-- Membership in any scheduling-order output of the OpenCL kernel is
membership in some thread's record list. -/
theorem opencl_mem_iff {tr : Traces} {n : ℕ} {θ : ℕ → ℚ} {ess : ℕ}
    {nbm : ℕ → ℕ → Bool} {numChans : ℕ} {sgnPos : Bool}
    {out : List (ℕ × ℕ)}
    (hrun : openclRun tr n θ ess nbm numChans sgnPos out) (s c : ℕ) :
    (s, c) ∈ out ↔ ∃ pos < n - 2 * ess, s = pos + ess ∧ c < numChans ∧
      (if sgnPos then clMaskPos tr θ ess nbm numChans pos c
       else clMaskNeg tr θ ess nbm numChans pos c) = true := by
  rw [hrun.mem_iff]
  simp only [clThreadLists, List.mem_map, List.mem_range]
  constructor
  · rintro ⟨l, ⟨pos, hpos, rfl⟩, hmem⟩
    obtain ⟨rfl, hc, hm⟩ := mem_clThreadRecords.mp hmem
    exact ⟨pos, hpos, rfl, hc, hm⟩
  · rintro ⟨pos, hpos, rfl, hc, hm⟩
    exact ⟨clThreadRecords tr θ ess nbm numChans sgnPos pos,
      ⟨pos, hpos, rfl⟩, mem_clThreadRecords.mpr ⟨rfl, hc, hm⟩⟩

theorem clMaskPos_iff_leMaskPos {tr : Traces} {θ : ℕ → ℚ} {ess : ℕ}
    {nbm : ℕ → ℕ → Bool} {numChans pos c : ℕ} (hess : 1 ≤ ess) :
    (clMaskPos tr θ ess nbm numChans pos c = true ↔
     leMaskPos tr θ ess nbm numChans pos c = true) := by
  rw [leMaskPos_iff hess]
  unfold clMaskPos
  simp only [Bool.and_eq_true, Bool.or_eq_true, Bool.not_eq_eq_eq_not,
    Bool.not_true, allB_eq_true, decide_eq_true_iff]
  constructor
  · rintro ⟨h1, h2⟩
    refine ⟨h1, fun nb hnb hmask => ?_⟩
    rcases h2 nb hnb with hfalse | ⟨hss, hwin⟩
    · rw [hmask] at hfalse
      cases hfalse
    · exact ⟨fun i hi => ⟨(hwin i hi).1, (hwin i hi).2⟩, fun _ => hss⟩
  · rintro ⟨h1, h2⟩
    refine ⟨h1, fun nb hnb => ?_⟩
    by_cases hmask : nbm c nb = true
    · obtain ⟨hwin, htie⟩ := h2 nb hnb hmask
      refine Or.inr ⟨?_, fun i hi => ⟨(hwin i hi).1, (hwin i hi).2⟩⟩
      by_cases hce : c = nb
      · subst hce
        exact le_refl _
      · exact htie hce
    · exact Or.inl (by revert hmask; cases nbm c nb <;> simp)

theorem clMaskNeg_iff_leMaskNeg {tr : Traces} {θ : ℕ → ℚ} {ess : ℕ}
    {nbm : ℕ → ℕ → Bool} {numChans pos c : ℕ} (hess : 1 ≤ ess) :
    (clMaskNeg tr θ ess nbm numChans pos c = true ↔
     leMaskNeg tr θ ess nbm numChans pos c = true) := by
  rw [leMaskNeg_iff hess]
  unfold clMaskNeg
  simp only [Bool.and_eq_true, Bool.or_eq_true, Bool.not_eq_eq_eq_not,
    Bool.not_true, allB_eq_true, decide_eq_true_iff]
  constructor
  · rintro ⟨h1, h2⟩
    refine ⟨h1, fun nb hnb hmask => ?_⟩
    rcases h2 nb hnb with hfalse | ⟨hss, hwin⟩
    · rw [hmask] at hfalse
      cases hfalse
    · exact ⟨fun i hi => ⟨(hwin i hi).1, (hwin i hi).2⟩, fun _ => hss⟩
  · rintro ⟨h1, h2⟩
    refine ⟨h1, fun nb hnb => ?_⟩
    by_cases hmask : nbm c nb = true
    · obtain ⟨hwin, htie⟩ := h2 nb hnb hmask
      refine Or.inr ⟨?_, fun i hi => ⟨(hwin i hi).1, (hwin i hi).2⟩⟩
      by_cases hce : c = nb
      · subst hce
        exact le_refl _
      · exact htie hce
    · exact Or.inl (by revert hmask; cases nbm c nb <;> simp)

/-- C3 counterexample: two failures of the claim as stated.  First,
`'both'` passes the GPU variant's own validation (`check_params` asserts
`peak_sign ∈ {'both','neg','pos'}` and succeeds through setup) but the
kernel sign lookup `{'pos': 1, 'neg': -1}[peak_sign]` has no entry for it,
so the GPU variant cannot execute a `peak_sign` that passed its
validation.  Second, with `exclude_sweep_size = 0` the CPU variant reports
nothing (empty Python slice `traces[0:-0]`) while the GPU kernel — whose
`global_size` is then the whole chunk — can report a peak, so the sets
differ (and not by a floating-point boundary tie). -/
theorem C3_counterexample :
    signStrValid "both" = true ∧ openclSignCode "both" = none ∧
    DetectPeakLocallyExclusive.detect_peaks tr1 1 1 .pos θ0 0
      (fun _ _ => true) = [] ∧
    openclRun tr1 1 θ0 0 (fun _ _ => true) 1 true [(0, 0)] := by
  refine ⟨rfl, rfl, by decide, ?_⟩
  unfold openclRun
  have h : clThreadLists tr1 1 θ0 0 (fun _ _ => true) 1 true =
      [[(0, 0)]] := by decide
  rw [h]
  exact ⟨[], rfl, Merge2.left _ _ _ _ Merge2.nil⟩

/-- C3 (amended: agreement holds for the executable GPU configurations —
`peak_sign` `'pos'` or `'neg'` — and `exclude_sweep_size ≥ 1`; `'both'`
passes GPU validation but crashes at first-chunk kernel compilation, and
`exclude_sweep_size = 0` makes the two variants differ, as the
counterexample shows): every scheduling-order output of the OpenCL kernel
contains exactly the `(sample_index, channel_index)` pairs that the CPU
locally-exclusive method reports on the same block with the same
parameters.  In the exact-rational model there are no floating-point
boundary ties, so the sets agree exactly. -/
theorem C3_backend_agreement (tr : Traces) (n numChans : ℕ) (θ : ℕ → ℚ)
    (ess : ℕ) (nbm : ℕ → ℕ → Bool) (sgnPos : Bool) (out : List (ℕ × ℕ))
    (hess : 1 ≤ ess)
    (hrun : openclRun tr n θ ess nbm numChans sgnPos out) (p : ℕ × ℕ) :
    p ∈ out ↔
    p ∈ DetectPeakLocallyExclusive.detect_peaks tr n numChans
      (if sgnPos then PeakSign.pos else PeakSign.neg) θ ess nbm := by
  obtain ⟨s, c⟩ := p
  rw [opencl_mem_iff hrun, mem_le_detect]
  have hcen : centerLen n ess = n - 2 * ess := by
    unfold centerLen
    rw [if_neg (by omega)]
  cases sgnPos
  · simp only [Bool.false_eq_true, if_false, leMask]
    constructor
    · rintro ⟨pos, hpos, rfl, hc, hm⟩
      exact ⟨pos, by rw [hcen]; exact hpos, hc, rfl,
        (clMaskNeg_iff_leMaskNeg hess).mp hm⟩
    · rintro ⟨s0, hs0, hc, rfl, hm⟩
      rw [hcen] at hs0
      exact ⟨s0, hs0, rfl, hc, (clMaskNeg_iff_leMaskNeg hess).mpr hm⟩
  · simp only [if_true, leMask]
    constructor
    · rintro ⟨pos, hpos, rfl, hc, hm⟩
      exact ⟨pos, by rw [hcen]; exact hpos, hc, rfl,
        (clMaskPos_iff_leMaskPos hess).mp hm⟩
    · rintro ⟨s0, hs0, hc, rfl, hm⟩
      rw [hcen] at hs0
      exact ⟨s0, hs0, rfl, hc, (clMaskPos_iff_leMaskPos hess).mpr hm⟩

/-- Witness for C3: a concrete kernel run (in-order schedule) on a block
with peaks at samples 1 and 3, compared at `(1, 0)`. -/
theorem C3_backend_agreement_witness :
    ((1, 0) ∈ ([(1, 0), (3, 0)] : List (ℕ × ℕ))) ↔
    ((1, 0) ∈ DetectPeakLocallyExclusive.detect_peaks trC9 5 1
      (if true then PeakSign.pos else PeakSign.neg) θ0 1
      (fun _ _ => true)) :=
  C3_backend_agreement trC9 5 1 θ0 1 (fun _ _ => true) true
    [(1, 0), (3, 0)] (by decide)
    (by
      unfold openclRun
      have h : clThreadLists trC9 5 θ0 1 (fun _ _ => true) 1 true =
          [[(1, 0)], [], [(3, 0)]] := by decide
      rw [h]
      exact ⟨[(3, 0)],
        ⟨[(3, 0)], ⟨[], rfl, Merge2.left _ _ _ _ Merge2.nil⟩,
          Merge2.right _ _ _ _ Merge2.nil⟩,
        Merge2.left _ _ _ _ (Merge2.right _ _ _ _ Merge2.nil)⟩)
    (1, 0)

end SpikeDetect
